import Mathlib

/-!
Shallow embedding of the core of the Campus Search Engine repository
(`backend/search_engine.py`, `backend/datastructure/{hashtable,trie,linkedlist}.py`)
and proofs about it.

Strings are modelled as `List Char`; Python's ordered `dict` is modelled as an
association list that updates the first matching key in place and appends new
keys at the end, which reproduces CPython's insertion-order semantics.
`LinkedList` (linkedlist.py) supports only tail-`append` and in-order
iteration, so a posting list is modelled as a `List Posting` with `++ [p]` as
`append`.
-/

set_option maxRecDepth 100000

namespace CampusSearch

/-! ### Tokenizer (search_engine.py, lines 9-48) -/

/-- ASCII alphanumeric test, the character class `[a-zA-Z0-9]` of the regex on
line 47 of search_engine.py. -/
def isAlnum (c : Char) : Bool :=
  (('a' ≤ c && c ≤ 'z') || ('A' ≤ c && c ≤ 'Z') || ('0' ≤ c && c ≤ '9'))

/-- ASCII lowercasing of one character, as `str.lower` acts on the ASCII
strings this engine handles. -/
def lowerChar (c : Char) : Char :=
  if 'A' ≤ c && c ≤ 'Z' then Char.ofNat (c.toNat + 32) else c

def lowerStr (s : List Char) : List Char :=
  s.map lowerChar

/-- Accumulator pass extracting the maximal `isAlnum` runs of a string, in
order: the behaviour of `re.findall(r"[a-zA-Z0-9]+", ·)` (search_engine.py
line 47).  `acc` holds the run currently being read. -/
def runsAux : List Char → List Char → List (List Char)
  | [], acc => if acc = [] then [] else [acc]
  | c :: rest, acc =>
    if isAlnum c then runsAux rest (acc ++ [c])
    else if acc = [] then runsAux rest [] else acc :: runsAux rest []

def asciiRuns (s : List Char) : List (List Char) :=
  runsAux s []

/-- The stopword set of search_engine.py lines 9-43. -/
def STOPWORDS : List (List Char) :=
  ["a".toList, "an".toList, "and".toList, "are".toList, "as".toList,
   "at".toList, "be".toList, "but".toList, "by".toList, "for".toList,
   "if".toList, "in".toList, "into".toList, "is".toList, "it".toList,
   "no".toList, "not".toList, "of".toList, "on".toList, "or".toList,
   "such".toList, "that".toList, "the".toList, "their".toList, "then".toList,
   "there".toList, "these".toList, "they".toList, "this".toList, "to".toList,
   "was".toList, "will".toList, "with".toList]

/-- Model of `tokenize` (search_engine.py lines 46-48): lowercase, take maximal
alphanumeric runs, drop stopwords. -/
def tokenize (text : List Char) : List (List Char) :=
  (asciiRuns (lowerStr text)).filter (fun t => !(STOPWORDS.contains t))

/-- Specification predicate: `ts` is the in-order list of maximal nonempty
alphanumeric runs of `s`.  A run must be followed by a non-alphanumeric
character or the end of the string, and no run may start at a
non-alphanumeric head, so runs can neither be split nor extended. -/
inductive RunsSpec : List Char → List (List Char) → Prop where
  | nil : RunsSpec [] []
  | sep (c : Char) (s : List Char) (ts : List (List Char)) :
      isAlnum c = false → RunsSpec s ts → RunsSpec (c :: s) ts
  | run (t : List Char) (s : List Char) (ts : List (List Char)) :
      t ≠ [] → (∀ c ∈ t, isAlnum c = true) →
      (∀ c, s.head? = some c → isAlnum c = false) →
      RunsSpec s ts → RunsSpec (t ++ s) (t :: ts)

/-! ### Stable descending sort by the numeric second component

Models Python's `list.sort(key=lambda item: item[1], reverse=True)` /
`sorted(..., key=..., reverse=True)` (search_engine.py line 128, trie.py
line 47): Python's sort is stable, and a stable sort that orders by the key
descending is uniquely determined, so any stable descending insertion sort is
extensionally the source's sort.  Stability and sortedness are proved below. -/

def insDesc {α : Type} (x : α × Nat) : List (α × Nat) → List (α × Nat)
  | [] => [x]
  | y :: ys => if y.2 ≤ x.2 then x :: y :: ys else y :: insDesc x ys

def sortDesc {α : Type} (l : List (α × Nat)) : List (α × Nat) :=
  l.foldr insDesc []

/-! ### Ordered-dict accumulation (`doc_scores` / `term_counts` dicts)

`bump acc k n` is `acc[k] = acc.get(k, 0) + n` on a Python dict: update the
first (unique) entry for `k` in place, or append `(k, n)` at the end. -/

def bump {κ : Type} [DecidableEq κ] : List (κ × Nat) → κ → Nat → List (κ × Nat)
  | [], k, n => [(k, n)]
  | e :: rest, k, n =>
    if e.1 = k then (e.1, e.2 + n) :: rest else e :: bump rest k n

/-- First occurrences of each element, in encounter order (the key order a
Python dict ends up with after repeated `bump`s). -/
def firstKeys {κ : Type} [DecidableEq κ] : List κ → List κ
  | [] => []
  | k :: rest => k :: firstKeys (rest.filter (fun x => !(decide (x = k))))
termination_by l => l.length
decreasing_by
  simp only [List.length_cons]
  exact Nat.lt_succ_of_le (List.length_filter_le _ _)

/-- Total weight attached to key `k` in an update list. -/
def sumFor {κ : Type} [DecidableEq κ] (u : List (κ × Nat)) (k : κ) : Nat :=
  ((u.filter (fun x => decide (x.1 = k))).map Prod.snd).sum

/-- Folding `bump` over an update list, the accumulation loops of
search_engine.py lines 71-73 and 120-126. -/
def foldBump {κ : Type} [DecidableEq κ] (A : List (κ × Nat)) (u : List (κ × Nat)) :
    List (κ × Nat) :=
  u.foldl (fun acc x => bump acc x.1 x.2) A

/-! ### Prefix tree (trie.py)

`TrieNode.children` is a Python dict `char -> TrieNode`: unique keys in
insertion order, so an association list; `is_end` and `frequency` are the
fields of trie.py lines 7-9. -/

inductive TrieNode : Type where
  | mk : List (Char × TrieNode) → Bool → Nat → TrieNode

def TrieNode.children : TrieNode → List (Char × TrieNode)
  | .mk ch _ _ => ch

def TrieNode.is_end : TrieNode → Bool
  | .mk _ e _ => e

def TrieNode.frequency : TrieNode → Nat
  | .mk _ _ f => f

/-- A fresh `TrieNode()` (trie.py lines 6-9). -/
def TrieNode.empty : TrieNode := .mk [] false 0

def childFind (c : Char) : List (Char × TrieNode) → Option TrieNode
  | [] => none
  | e :: rest => if e.1 = c then some e.2 else childFind c rest

def childReplace (c : Char) (t : TrieNode) : List (Char × TrieNode) → List (Char × TrieNode)
  | [] => []
  | e :: rest => if e.1 = c then (c, t) :: rest else e :: childReplace c t rest

/-- Model of `Trie.insert` (trie.py lines 16-23): walk/create a child per character,
then mark the final node terminal and increment its `frequency`. -/
def insertT : List Char → TrieNode → TrieNode
  | [], .mk ch _ f => .mk ch true (f + 1)
  | c :: rest, .mk ch e f =>
    match childFind c ch with
    | some t => .mk (childReplace c (insertT rest t) ch) e f
    | none => .mk (ch ++ [(c, insertT rest TrieNode.empty)]) e f

/-- Model of `Trie._walk` (trie.py lines 25-31). -/
def walkT : List Char → TrieNode → Option TrieNode
  | [], n => some n
  | c :: rest, n =>
    match childFind c n.children with
    | none => none
    | some t => walkT rest t

/-- The `frequency` stored at the node reached by `word` (0 when the path
does not exist). -/
def freqAt (root : TrieNode) (w : List Char) : Nat :=
  match walkT w root with
  | none => 0
  | some n => n.frequency

mutual
def TrieNode.size : TrieNode → Nat
  | .mk ch _ _ => 1 + sizeChildren ch
def sizeChildren : List (Char × TrieNode) → Nat
  | [] => 0
  | e :: rest => TrieNode.size e.2 + sizeChildren rest
end

def queueWeight (q : List (TrieNode × List Char)) : Nat :=
  (q.map (fun x => x.1.size)).sum

theorem sizeChildren_eq (ch : List (Char × TrieNode)) :
    sizeChildren ch = (ch.map (fun e => e.2.size)).sum := by
  induction ch with
  | nil => simp [sizeChildren]
  | cons e rest ih => simp [sizeChildren, ih]

theorem queueWeight_childEntries (n : TrieNode) (p : List Char) :
    queueWeight (n.children.map (fun e => (e.2, p ++ [e.1]))) + 1 = n.size := by
  cases n with
  | mk ch e f =>
    simp only [queueWeight, TrieNode.children, List.map_map, Function.comp_def,
      TrieNode.size, sizeChildren_eq]
    omega

/-- The breadth-first collection loop of `Trie.autocomplete` (trie.py lines
38-45): pop from the front, record `(full_term, frequency)` at terminal
nodes, push the children (in child insertion order) at the back. -/
def bfsT : List (TrieNode × List Char) → List (List Char × Nat)
  | [] => []
  | (n, p) :: rest =>
    (if n.is_end then [(p, n.frequency)] else []) ++
      bfsT (rest ++ n.children.map (fun e => (e.2, p ++ [e.1])))
termination_by q => queueWeight q
decreasing_by
  have h := queueWeight_childEntries n p
  simp only [queueWeight, List.map_map, Function.comp_def] at h
  simp only [queueWeight, List.map_append, List.sum_append, List.map_cons, List.sum_cons,
    List.map_map, Function.comp_def]
  omega

/-- The `results[:limit]` slice of trie.py line 48 before the term projection:
all `(term, document_frequency)` pairs of the subtree, sorted by frequency
descending (stably), truncated to `limit`. -/
def autocompleteScored (root : TrieNode) (pre : List Char) (limit : Nat) :
    List (List Char × Nat) :=
  match walkT pre root with
  | none => []
  | some n => (sortDesc (bfsT [(n, pre)])).take limit

/-- Model of `Trie.autocomplete` (trie.py lines 33-48).  Note the final comprehension
`[term for term, _ in results[:limit]]`: the frequencies are dropped and only
the term strings are returned. -/
def autocomplete (root : TrieNode) (pre : List Char) (limit : Nat) : List (List Char) :=
  (autocompleteScored root pre limit).map Prod.fst

/-! ### Chained hash table (hashtable.py)

Buckets are `LinkedList`s of `(key, value)` pairs with tail-append, so each
bucket is a `List (List Char × α)`. -/

structure HashTable (α : Type) where
  capacity : Nat
  buckets : List (List (List Char × α))
  size : Nat

/-- Model of `HashTable.__init__` (hashtable.py lines 7-10): `capacity = max(8, c)`. -/
def HashTable.empty {α : Type} (c : Nat) : HashTable α :=
  ⟨max 8 c, List.replicate (max 8 c) [], 0⟩

/-- Model of `HashTable._hash` (hashtable.py lines 12-16): `h = (h*31 + ord(ch)) %
capacity`, accumulated per character (capacity-dependent). -/
def hashF (cap : Nat) (k : List Char) : Nat :=
  k.foldl (fun h c => (h * 31 + c.toNat) % cap) 0

/-- Model of `LinkedList.find` on a bucket with the predicate `kv[0] == key`
(hashtable.py lines 21, 33): first node whose stored key equals `k`. -/
def bucketFind {α : Type} : List (List Char × α) → List Char → Option (List Char × α)
  | [], _ => none
  | kv :: rest, k => if kv.1 = k then some kv else bucketFind rest k

/-- Model of `node.value = (key, value)` on the first matching node (hashtable.py
line 23). -/
def overwriteFirst {α : Type} : List (List Char × α) → List Char → α → List (List Char × α)
  | [], _, _ => []
  | kv :: rest, k, v => if kv.1 = k then (k, v) :: rest else kv :: overwriteFirst rest k v

/-- Model of `HashTable.get` (hashtable.py lines 30-36). -/
def HashTable.get {α : Type} (ht : HashTable α) (k : List Char) : Option α :=
  (bucketFind (ht.buckets.getD (hashF ht.capacity k) []) k).map Prod.snd

/-- The insert/overwrite logic of `HashTable.set` (hashtable.py lines 18-26)
without the growth check: overwrite the first equal key in the target bucket,
else append `(key, value)` and increment `size`. -/
def HashTable.setRaw {α : Type} (ht : HashTable α) (k : List Char) (v : α) : HashTable α :=
  let i := hashF ht.capacity k
  let b := ht.buckets.getD i []
  match bucketFind b k with
  | some _ => ⟨ht.capacity, ht.buckets.set i (overwriteFirst b k v), ht.size⟩
  | none => ⟨ht.capacity, ht.buckets.set i (b ++ [(k, v)]), ht.size + 1⟩

/-- Model of `HashTable._resize` (hashtable.py lines 38-45): double the capacity,
reset `size`, and re-`set` every `(key, value)` pair in bucket-then-chain
order.  The source re-inserts via `self.set`, whose growth check cannot fire
during a rehash reached from a consistent table (`resize_check_dead` below),
so the re-insertions are `setRaw`. -/
def HashTable.resize {α : Type} (ht : HashTable α) : HashTable α :=
  (ht.buckets.flatten).foldl (fun acc kv => acc.setRaw kv.1 kv.2)
    ⟨ht.capacity * 2, List.replicate (ht.capacity * 2) [], 0⟩

/-- Model of `HashTable.set` (hashtable.py lines 18-28).  The load-factor test
`size / capacity > 0.75` on integers with power-of-two capacity is exactly
`4 * size > 3 * capacity`. -/
def HashTable.set {α : Type} (ht : HashTable α) (k : List Char) (v : α) : HashTable α :=
  match bucketFind (ht.buckets.getD (hashF ht.capacity k) []) k with
  | some _ => ht.setRaw k v
  | none =>
    let grown := ht.setRaw k v
    if 4 * grown.size > 3 * grown.capacity then grown.resize else grown

def applyOps {α : Type} (ht : HashTable α) (ops : List (List Char × α)) : HashTable α :=
  ops.foldl (fun h kv => h.set kv.1 kv.2) ht

/-- All `(key, value)` entries in bucket-then-chain order (the iteration
order of `_resize`). -/
def entriesOf {α : Type} (ht : HashTable α) : List (List Char × α) :=
  ht.buckets.flatten

def keyCount {α : Type} (ht : HashTable α) (k : List Char) : Nat :=
  (entriesOf ht).countP (fun kv => kv.1 == k)

/-! ### Search engine (search_engine.py) -/

structure Posting where
  doc_id : Nat
  term_freq : Nat
deriving DecidableEq

structure DocMeta where
  title : List Char
  filename : List Char
  length : Nat
deriving DecidableEq

/-- Engine state (search_engine.py lines 52-56). `documents` is a Python dict
keyed by the sequentially assigned ids, hence an insertion-ordered
association list. -/
structure Engine where
  inverted_index : HashTable (List Posting)
  trie : TrieNode
  documents : List (Nat × DocMeta)
  doc_counter : Nat

def engineInit : Engine :=
  ⟨HashTable.empty 1024, TrieNode.empty, [], 0⟩

/-- The posting-list update of search_engine.py lines 76-80: fetch the
term's `LinkedList` (creating and `set`ting an empty one if absent) and
append the posting to it.  Because the list object is stored by reference
and `set` on the now-existing key only overwrites the stored value, this is
equivalent to storing the appended list under the term. -/
def indexAdd (ht : HashTable (List Posting)) (t : List Char) (p : Posting) :
    HashTable (List Posting) :=
  ht.set t (((ht.get t).getD []) ++ [p])

/-- Model of `CampusSearchEngine.add_document` (search_engine.py lines 58-83). -/
def addDocument (e : Engine) (title content filename : List Char) : Engine × Int :=
  let tokens := tokenize content
  if tokens = [] then (e, -1)
  else
    let did := e.doc_counter + 1
    let meta : DocMeta := ⟨title, filename, tokens.length⟩
    let counts := foldBump [] (tokens.map (fun t => (t, 1)))
    let st := counts.foldl
      (fun st tc => (indexAdd st.1 tc.1 ⟨did, tc.2⟩, insertT tc.1 st.2))
      (e.inverted_index, e.trie)
    (⟨st.1, st.2, e.documents ++ [(did, meta)], did⟩, Int.ofNat did)

structure RawDoc where
  title : List Char
  content : List Char
  filename : List Char

def ingestAll (e : Engine) (docs : List RawDoc) : Engine :=
  docs.foldl (fun e d => (addDocument e d.title d.content d.filename).1) e

def postingsOf (ht : HashTable (List Posting)) (t : List Char) : List Posting :=
  (ht.get t).getD []

/-- Model of `CampusSearchEngine._search` (search_engine.py lines 108-128). -/
def searchFn (e : Engine) (q : List Char) (byPre : Bool) : List (Nat × Nat) :=
  let qt := tokenize q
  if qt = [] then []
  else
    let cands := qt.foldl
      (fun acc t => acc ++ (if byPre then autocomplete e.trie t 25 else [t])) []
    let scores := cands.foldl
      (fun sc t =>
        match e.inverted_index.get t with
        | none => sc
        | some ps => ps.foldl (fun sc p => bump sc p.doc_id p.term_freq) sc)
      []
    sortDesc scores

def keywordSearch (e : Engine) (q : List Char) : List (Nat × Nat) :=
  searchFn e q false

def prefixSearch (e : Engine) (q : List Char) : List (Nat × Nat) :=
  searchFn e q true

/-- Python whitespace for `str.strip`. -/
def pySpace (c : Char) : Bool :=
  c = ' ' || c = '\t' || c = '\n' || c = '\x0d' || c = '\x0b' || c = '\x0c'

def pyStrip (s : List Char) : List Char :=
  ((s.dropWhile pySpace).reverse.dropWhile pySpace).reverse

/-- Python's substring test `a in b`. -/
def isSubstring (q : List Char) : List Char → Bool
  | [] => q.isPrefixOf []
  | c :: rest => q.isPrefixOf (c :: rest) || isSubstring q rest

/-- Model of `CampusSearchEngine.filename_search` (search_engine.py lines 91-106). -/
def filenameSearch (e : Engine) (q : List Char) (byPre : Bool) : List (Nat × Nat) :=
  let qv := lowerStr (pyStrip q)
  if qv = [] then []
  else
    e.documents.foldl
      (fun acc dm =>
        let fn := lowerStr dm.2.filename
        if fn = [] then acc
        else if (if byPre then qv.isPrefixOf fn else isSubstring qv fn) then
          acc ++ [(dm.1, 1)]
        else acc)
      []

/-- The `(doc_id, term_freq)` pairs scanned by the scoring loop of `_search`
(search_engine.py lines 120-126), in iteration order. -/
def pairsOf (ht : HashTable (List Posting)) (cands : List (List Char)) : List (Nat × Nat) :=
  cands.flatMap (fun t => (postingsOf ht t).map (fun p => (p.doc_id, p.term_freq)))

/-- The candidate-term list built by `_search` (search_engine.py lines
113-118). -/
def candsOf (e : Engine) (qt : List (List Char)) (byPre : Bool) : List (List Char) :=
  qt.flatMap (fun t => if byPre then autocomplete e.trie t 25 else [t])

/-- First value stored under `k` in an entry list. -/
def assocFind {α : Type} : List (List Char × α) → List Char → Option α
  | [], _ => none
  | kv :: rest, k => if kv.1 = k then some kv.2 else assocFind rest k

/-- Consistency of a `HashTable` (everything `set`/`get`/`_resize` rely on):
positive bucket count matching `capacity`, every entry chained in the bucket
its key hashes to, per-bucket distinct keys, and accurate `size`. -/
structure HTCore {α : Type} (ht : HashTable α) : Prop where
  cpos : 0 < ht.capacity
  blen : ht.buckets.length = ht.capacity
  placed : ∀ i, ∀ kv ∈ ht.buckets.getD i [], hashF ht.capacity kv.1 = i
  bnodup : ∀ i, ((ht.buckets.getD i []).map Prod.fst).Nodup
  szOK : ht.size = (ht.buckets.map List.length).sum

/-- Full invariant maintained by `set` from any `HashTable.empty` state:
consistency plus `capacity ≥ 8` and load factor at most 3/4. -/
def HTWF {α : Type} (ht : HashTable α) : Prop :=
  HTCore ht ∧ 8 ≤ ht.capacity ∧ 4 * ht.size ≤ 3 * ht.capacity

/-- Shape of a posting list stored under one term when every document id was
issued no later than `n`: strictly increasing document ids (hence at most one
posting per document) and positive term frequencies. -/
def PostingsOK (ps : List Posting) (n : Nat) : Prop :=
  List.Chain' (fun p q => p.doc_id < q.doc_id) ps ∧
    ∀ p ∈ ps, 1 ≤ p.term_freq ∧ p.doc_id ≤ n

/-- Invariant of every engine state reachable by ingestion. -/
def EngineInv (e : Engine) : Prop :=
  HTWF e.inverted_index ∧
    ∀ t ps, e.inverted_index.get t = some ps → PostingsOK ps e.doc_counter

end CampusSearch

namespace CampusSearch

example : tokenize ("the quick fox and the lazy dog".toList) =
    ["quick".toList, "fox".toList, "lazy".toList, "dog".toList] := by decide

example : sortDesc [((1 : Nat), (1 : Nat)), (2, 2)] = [(2, 2), (1, 1)] := by decide

example : sortDesc [((1 : Nat), (2 : Nat)), (2, 2), (3, 5)] = [(3, 5), (1, 2), (2, 2)] := by
  decide

example : foldBump ([] : List (Nat × Nat)) [(1, 2), (2, 2), (1, 1)] = [(1, 3), (2, 2)] := by
  decide

example : firstKeys [1, 2, 1, 3, 2] = [1, 2, 3] := by simp [firstKeys]

example : freqAt (insertT ("cat".toList) (insertT ("cat".toList) TrieNode.empty))
    ("cat".toList) = 2 := by decide

example :
    keywordSearch
      (ingestAll engineInit
        [⟨"A".toList, "cat dog cat".toList, "a.txt".toList⟩,
         ⟨"B".toList, "dog dog".toList, "b.txt".toList⟩])
      ("dog".toList) = [(2, 2), (1, 1)] := by decide

example :
    autocomplete (insertT ("apple".toList) TrieNode.empty) ("app".toList) 8 =
      ["apple".toList] := by
  simp [autocomplete, autocompleteScored, walkT, childFind, insertT, TrieNode.empty,
    bfsT, sortDesc, insDesc, TrieNode.children, TrieNode.is_end, TrieNode.frequency]

/-! ## Lemmas about the stable descending sort -/

theorem insDesc_perm {α : Type} (x : α × Nat) (l : List (α × Nat)) :
    List.Perm (insDesc x l) (x :: l) := by
  induction l with
  | nil => simp [insDesc]
  | cons y ys ih =>
    by_cases h : y.2 ≤ x.2
    · simp [insDesc, h]
    · simp only [insDesc, if_neg h]
      exact (ih.cons y).trans (List.Perm.swap x y ys)

theorem sortDesc_perm {α : Type} (l : List (α × Nat)) : List.Perm (sortDesc l) l := by
  induction l with
  | nil => simp [sortDesc]
  | cons x xs ih =>
    exact (insDesc_perm x (sortDesc xs)).trans (ih.cons x)

theorem insDesc_sorted {α : Type} (x : α × Nat) (l : List (α × Nat))
    (h : l.Pairwise (fun a b => b.2 ≤ a.2)) :
    (insDesc x l).Pairwise (fun a b => b.2 ≤ a.2) := by
  induction l with
  | nil => simp [insDesc]
  | cons y ys ih =>
    rcases h with - | ⟨hy, hys⟩
    by_cases hle : y.2 ≤ x.2
    · simp only [insDesc, if_pos hle]
      refine List.Pairwise.cons ?_ (List.Pairwise.cons hy hys)
      intro z hz
      rcases List.mem_cons.mp hz with rfl | hz
      · exact hle
      · exact (hy z hz).trans hle
    · simp only [insDesc, if_neg hle]
      refine List.Pairwise.cons ?_ (ih hys)
      intro z hz
      rcases List.mem_cons.mp ((insDesc_perm x ys).mem_iff.mp hz) with rfl | hz
      · exact Nat.le_of_lt (Nat.lt_of_not_le hle)
      · exact hy z hz

theorem sortDesc_sorted {α : Type} (l : List (α × Nat)) :
    (sortDesc l).Pairwise (fun a b => b.2 ≤ a.2) := by
  induction l with
  | nil => simp [sortDesc]
  | cons x xs ih => exact insDesc_sorted x (sortDesc xs) ih

theorem insDesc_filter {α : Type} (x : α × Nat) (l : List (α × Nat)) (n : Nat) :
    (insDesc x l).filter (fun y => decide (y.2 = n)) =
      (if x.2 = n then [x] else []) ++ l.filter (fun y => decide (y.2 = n)) := by
  induction l with
  | nil =>
    by_cases hx : x.2 = n <;> simp [insDesc, hx]
  | cons y ys ih =>
    by_cases hle : y.2 ≤ x.2
    · simp only [insDesc, if_pos hle]
      by_cases hx : x.2 = n <;> simp [List.filter_cons, hx]
    · simp only [insDesc, if_neg hle]
      by_cases hx : x.2 = n
      · have hy : ¬(y.2 = n) := by
          intro hcon
          exact hle (by omega)
        simp [List.filter_cons, hx, hy, ih]
      · by_cases hy : y.2 = n <;> simp [List.filter_cons, hx, hy, ih]

theorem sortDesc_stable {α : Type} (l : List (α × Nat)) (n : Nat) :
    (sortDesc l).filter (fun y => decide (y.2 = n)) =
      l.filter (fun y => decide (y.2 = n)) := by
  induction l with
  | nil => rfl
  | cons x xs ih =>
    have : sortDesc (x :: xs) = insDesc x (sortDesc xs) := rfl
    rw [this, insDesc_filter, ih, List.filter_cons]
    by_cases hx : x.2 = n <;> simp [hx]


/-! ## Lemmas about ordered-dict accumulation -/

theorem sumFor_cons {κ : Type} [DecidableEq κ] (e : κ × Nat) (u : List (κ × Nat)) (k : κ) :
    sumFor (e :: u) k = (if e.1 = k then e.2 else 0) + sumFor u k := by
  by_cases h : e.1 = k <;> simp [sumFor, List.filter_cons, h]

theorem sumFor_append {κ : Type} [DecidableEq κ] (u v : List (κ × Nat)) (k : κ) :
    sumFor (u ++ v) k = sumFor u k + sumFor v k := by
  simp [sumFor, List.filter_append]

theorem firstKeys_cons {κ : Type} [DecidableEq κ] (k : κ) (l : List κ) :
    firstKeys (k :: l) = k :: firstKeys (l.filter (fun x => !(decide (x = k)))) := by
  rw [firstKeys]

theorem mem_firstKeys {κ : Type} [DecidableEq κ] (x : κ) (l : List κ) :
    x ∈ firstKeys l ↔ x ∈ l := by
  induction l using firstKeys.induct with
  | case1 => simp [firstKeys]
  | case2 k rest ih =>
    rw [firstKeys_cons, List.mem_cons, ih]
    by_cases hx : x = k <;> simp [List.mem_filter, hx]

theorem firstKeys_nodup {κ : Type} [DecidableEq κ] (l : List κ) :
    (firstKeys l).Nodup := by
  induction l using firstKeys.induct with
  | case1 => simp [firstKeys]
  | case2 k rest ih =>
    rw [firstKeys_cons]
    refine List.Nodup.cons ?_ ih
    intro hk
    have := (mem_firstKeys k _).mp hk
    simp [List.mem_filter] at this

theorem map_self_of_mem {β : Type} (l : List β) (f : β → β) (h : ∀ a ∈ l, f a = a) :
    l.map f = l := by
  induction l with
  | nil => rfl
  | cons a rest ih =>
    simp [h a (List.mem_cons_self a rest), ih (fun b hb => h b (List.mem_cons_of_mem a hb))]

theorem bump_not_mem {κ : Type} [DecidableEq κ] (A : List (κ × Nat)) (k : κ) (n : Nat)
    (h : k ∉ A.map Prod.fst) : bump A k n = A ++ [(k, n)] := by
  induction A with
  | nil => rfl
  | cons e rest ih =>
    simp only [List.map_cons, List.mem_cons] at h
    push_neg at h
    have h1 : ¬(e.1 = k) := fun he => h.1 he.symm
    simp [bump, h1, ih h.2]

theorem bump_map_fst {κ : Type} [DecidableEq κ] (A : List (κ × Nat)) (k : κ) (n : Nat) :
    (bump A k n).map Prod.fst =
      if k ∈ A.map Prod.fst then A.map Prod.fst else A.map Prod.fst ++ [k] := by
  induction A with
  | nil => simp [bump]
  | cons e rest ih =>
    by_cases he : e.1 = k
    · simp [bump, he]
    · have hne : ¬(k = e.1) := fun hc => he hc.symm
      by_cases hk : k ∈ rest.map Prod.fst <;> simp [bump, he, hne, ih, hk]

theorem bump_nodup {κ : Type} [DecidableEq κ] (A : List (κ × Nat)) (k : κ) (n : Nat)
    (hA : (A.map Prod.fst).Nodup) : ((bump A k n).map Prod.fst).Nodup := by
  rw [bump_map_fst]
  by_cases hk : k ∈ A.map Prod.fst <;> simp [hk, hA, List.nodup_append]

theorem bump_mem_map {κ : Type} [DecidableEq κ] (A : List (κ × Nat)) (k : κ) (n : Nat)
    (hA : (A.map Prod.fst).Nodup) (hmem : k ∈ A.map Prod.fst) :
    bump A k n = A.map (fun e => if e.1 = k then (e.1, e.2 + n) else e) := by
  induction A with
  | nil => simp at hmem
  | cons e rest ih =>
    simp only [List.map_cons, List.nodup_cons] at hA
    simp only [List.map_cons, List.mem_cons] at hmem
    by_cases he : e.1 = k
    · have hk : k ∉ rest.map Prod.fst := by
        rw [he] at hA
        exact hA.1
      have hrest : rest.map (fun x => if x.1 = k then (x.1, x.2 + n) else x) = rest :=
        map_self_of_mem rest _ (by
          intro x hx
          have hxk : ¬(x.1 = k) := by
            intro hc
            exact hk (hc ▸ List.mem_map_of_mem Prod.fst hx)
          simp [hxk])
      simp [bump, he, hrest]
    · have hmem' : k ∈ rest.map Prod.fst := by
        rcases hmem with hc | hc
        · exact absurd hc.symm he
        · exact hc
      simp [bump, he, ih hA.2 hmem']

/-- Closed form of repeated `bump`ing: the keys already in the accumulator
keep their places and absorb their updates, and the new keys follow in
first-encounter order. -/
theorem foldBump_closed {κ : Type} [DecidableEq κ] (u : List (κ × Nat)) :
    ∀ A : List (κ × Nat), (A.map Prod.fst).Nodup →
      foldBump A u =
        A.map (fun e => (e.1, e.2 + sumFor u e.1)) ++
          (firstKeys ((u.map Prod.fst).filter
              (fun k => !(decide (k ∈ A.map Prod.fst))))).map (fun k => (k, sumFor u k)) := by
  induction u with
  | nil =>
    intro A hA
    have h1 : A.map (fun e => (e.1, e.2 + sumFor [] e.1)) = A := by
      apply map_self_of_mem
      intro a ha
      simp [sumFor]
    simp [foldBump, firstKeys, h1]
  | cons x rest ih =>
    intro A hA
    have step : foldBump A (x :: rest) = foldBump (bump A x.1 x.2) rest := rfl
    rw [step, ih (bump A x.1 x.2) (bump_nodup A x.1 x.2 hA)]
    by_cases hmem : x.1 ∈ A.map Prod.fst
    · rw [bump_mem_map A x.1 x.2 hA hmem]
      have hfst : (A.map (fun e => if e.1 = x.1 then (e.1, e.2 + x.2) else e)).map Prod.fst
          = A.map Prod.fst := by
        rw [List.map_map]
        apply List.map_congr_left
        intro a ha
        by_cases h : a.1 = x.1 <;> simp [h]
      rw [hfst]
      congr 1
      · rw [List.map_map]
        apply List.map_congr_left
        intro a ha
        by_cases h : a.1 = x.1
        · simp [Function.comp, h, sumFor_cons, Nat.add_assoc]
        · have h2 : ¬(x.1 = a.1) := fun hc => h hc.symm
          simp [Function.comp, h, sumFor_cons, h2]
      · have hdrop : ((x :: rest).map Prod.fst).filter
            (fun k => !(decide (k ∈ A.map Prod.fst))) =
            (rest.map Prod.fst).filter (fun k => !(decide (k ∈ A.map Prod.fst))) := by
          simp [List.filter_cons, hmem]
        rw [hdrop]
        apply List.map_congr_left
        intro k hk
        have hk2 : k ∈ (rest.map Prod.fst).filter
            (fun k => !(decide (k ∈ A.map Prod.fst))) := (mem_firstKeys k _).mp hk
        have hkA : k ∉ A.map Prod.fst := by
          have := List.of_mem_filter hk2
          simpa using this
        have hkx : ¬(x.1 = k) := fun hc => hkA (hc ▸ hmem)
        simp [sumFor_cons, hkx]
    · rw [bump_not_mem A x.1 x.2 hmem]
      have hkeys : (A ++ [(x.1, x.2)]).map Prod.fst = A.map Prod.fst ++ [x.1] := by
        simp
      rw [hkeys, List.map_append]
      have hmapA : A.map ((fun e => (e.1, e.2 + sumFor rest e.1))) =
          A.map (fun e => (e.1, e.2 + sumFor (x :: rest) e.1)) := by
        apply List.map_congr_left
        intro a ha
        have hax : ¬(x.1 = a.1) := by
          intro hc
          exact hmem (hc ▸ List.mem_map_of_mem Prod.fst ha)
        simp [sumFor_cons, hax]
      have hfilter : (rest.map Prod.fst).filter
          (fun k => !(decide (k ∈ A.map Prod.fst ++ [x.1]))) =
          ((rest.map Prod.fst).filter (fun k => !(decide (k ∈ A.map Prod.fst)))).filter
            (fun k => !(decide (k = x.1))) := by
        rw [List.filter_filter]
        apply List.filter_congr
        intro k hk
        by_cases h1 : k ∈ A.map Prod.fst <;> by_cases h2 : k = x.1 <;>
          simp [h1, h2]
      have hconsR : ((x :: rest).map Prod.fst).filter
          (fun k => !(decide (k ∈ A.map Prod.fst))) =
          x.1 :: ((rest.map Prod.fst).filter (fun k => !(decide (k ∈ A.map Prod.fst)))) := by
        simp [List.filter_cons, hmem]
      rw [hfilter, hconsR, firstKeys_cons]
      have htail : (firstKeys (((rest.map Prod.fst).filter
            (fun k => !(decide (k ∈ A.map Prod.fst)))).filter
              (fun z => !(decide (z = x.1))))).map (fun k => (k, sumFor rest k)) =
          (firstKeys (((rest.map Prod.fst).filter
            (fun k => !(decide (k ∈ A.map Prod.fst)))).filter
              (fun z => !(decide (z = x.1))))).map (fun k => (k, sumFor (x :: rest) k)) := by
        apply List.map_congr_left
        intro k hk
        have hk2 := (mem_firstKeys k _).mp hk
        have hkx : ¬(x.1 = k) := by
          have := List.of_mem_filter hk2
          intro hc
          simp [hc.symm] at this
        simp [sumFor_cons, hkx]
      rw [htail, hmapA]
      simp [sumFor_cons, Nat.add_comm, List.append_assoc]

/-- Specialisation to an empty accumulator, the form every scoring loop of
the engine starts from. -/
theorem foldBump_nil {κ : Type} [DecidableEq κ] (u : List (κ × Nat)) :
    foldBump [] u = (firstKeys (u.map Prod.fst)).map (fun k => (k, sumFor u k)) := by
  have h := foldBump_closed u [] (by simp)
  simpa using h

theorem foldBump_nil_fst {κ : Type} [DecidableEq κ] (u : List (κ × Nat)) :
    (foldBump [] u).map Prod.fst = firstKeys (u.map Prod.fst) := by
  rw [foldBump_nil, List.map_map]
  exact (List.map_congr_left (fun a _ => rfl)).trans (List.map_id _)

theorem foldBump_nil_nodup {κ : Type} [DecidableEq κ] (u : List (κ × Nat)) :
    ((foldBump [] u).map Prod.fst).Nodup := by
  rw [foldBump_nil_fst]
  exact firstKeys_nodup _

theorem mem_foldBump_nil {κ : Type} [DecidableEq κ] (u : List (κ × Nat)) (k : κ) (s : Nat) :
    (k, s) ∈ foldBump [] u ↔ k ∈ u.map Prod.fst ∧ s = sumFor u k := by
  rw [foldBump_nil]
  constructor
  · intro h
    rcases List.mem_map.mp h with ⟨k2, hk2, heq⟩
    have h1 : k2 = k := congrArg Prod.fst heq
    have h2 : sumFor u k2 = s := congrArg Prod.snd heq
    subst h1
    exact ⟨(mem_firstKeys k2 _).mp hk2, h2.symm⟩
  · rintro ⟨hk, rfl⟩
    exact List.mem_map_of_mem _ ((mem_firstKeys k _).mpr hk)

/-! ## Fusing the scoring loops of `_search` into `foldBump` -/

theorem foldl_append_flatMap {β γ : Type} (l : List β) (g : β → List γ) :
    ∀ init : List γ, l.foldl (fun acc t => acc ++ g t) init = init ++ l.flatMap g := by
  induction l with
  | nil => intro init; simp
  | cons t rest ih =>
    intro init
    simp [List.foldl_cons, ih (init ++ g t)]

theorem foldl_posting_bump (ps : List Posting) (A : List (Nat × Nat)) :
    ps.foldl (fun sc p => bump sc p.doc_id p.term_freq) A =
      foldBump A (ps.map (fun p => (p.doc_id, p.term_freq))) := by
  induction ps generalizing A with
  | nil => rfl
  | cons p rest ih => simp [foldBump, List.foldl_cons, ih (bump A p.doc_id p.term_freq)]

theorem scores_loop_eq (ht : HashTable (List Posting)) (cands : List (List Char)) :
    ∀ A : List (Nat × Nat),
      cands.foldl
        (fun sc t =>
          match ht.get t with
          | none => sc
          | some ps => ps.foldl (fun sc p => bump sc p.doc_id p.term_freq) sc)
        A = foldBump A (pairsOf ht cands) := by
  induction cands with
  | nil => intro A; rfl
  | cons t rest ih =>
    intro A
    have hstep :
        (match ht.get t with
          | none => A
          | some ps => ps.foldl (fun sc p => bump sc p.doc_id p.term_freq) A) =
          foldBump A ((postingsOf ht t).map (fun p => (p.doc_id, p.term_freq))) := by
      cases hg : ht.get t with
      | none => simp [postingsOf, hg, foldBump]
      | some ps => simp [postingsOf, hg, foldl_posting_bump]
    simp only [List.foldl_cons, hstep]
    rw [ih]
    simp [pairsOf, foldBump, List.flatMap_cons, List.foldl_append]

/-- Equation for `_search` (search_engine.py lines 108-128): build the
candidate list, accumulate document scores over every candidate's postings,
and stable-sort by score descending. -/
theorem searchFn_eq (e : Engine) (q : List Char) (b : Bool) :
    searchFn e q b =
      sortDesc (foldBump [] (pairsOf e.inverted_index (candsOf e (tokenize q) b))) := by
  unfold searchFn
  by_cases hq : tokenize q = []
  · simp [hq, candsOf, pairsOf, foldBump, sortDesc]
  · simp only [if_neg hq]
    rw [foldl_append_flatMap, scores_loop_eq]
    simp [candsOf]

/-! ## Lemmas about the trie -/

theorem freqAt_cons (n : TrieNode) (c : Char) (r : List Char) :
    freqAt n (c :: r) =
      (match childFind c n.children with
        | none => 0
        | some t => freqAt t r) := by
  cases hcf : childFind c n.children <;> simp [freqAt, walkT, hcf]

theorem freqAt_empty (w : List Char) : freqAt TrieNode.empty w = 0 := by
  cases w with
  | nil => rfl
  | cons c r => rw [freqAt_cons]; rfl

theorem childFind_replace_eq (c : Char) (t u : TrieNode) (ch : List (Char × TrieNode))
    (h : childFind c ch = some u) :
    childFind c (childReplace c t ch) = some t := by
  induction ch with
  | nil => simp [childFind] at h
  | cons e rest ih =>
    by_cases he : e.1 = c
    · simp [childFind, childReplace, he]
    · simp only [childFind, childReplace, if_neg he] at h ⊢
      simp [childFind, he, ih h]

theorem childFind_replace_ne (c c2 : Char) (t : TrieNode) (ch : List (Char × TrieNode))
    (h : ¬(c2 = c)) :
    childFind c2 (childReplace c t ch) = childFind c2 ch := by
  induction ch with
  | nil => rfl
  | cons e rest ih =>
    by_cases he : e.1 = c
    · have hca : ¬(c = c2) := fun hcc => h hcc.symm
      have he2 : ¬(e.1 = c2) := by rw [he]; exact hca
      simp [childReplace, childFind, he, hca, he2]
    · by_cases he2 : e.1 = c2 <;> simp [childReplace, childFind, he, he2, h, ih]

theorem childFind_append_eq (c : Char) (t : TrieNode) (ch : List (Char × TrieNode))
    (h : childFind c ch = none) :
    childFind c (ch ++ [(c, t)]) = some t := by
  induction ch with
  | nil => simp [childFind]
  | cons e rest ih =>
    by_cases he : e.1 = c
    · simp [childFind, he] at h
    · simp only [childFind, if_neg he] at h
      simp [childFind, he, ih h]

theorem childFind_append_ne (c c2 : Char) (t : TrieNode) (ch : List (Char × TrieNode))
    (h : ¬(c = c2)) :
    childFind c2 (ch ++ [(c, t)]) = childFind c2 ch := by
  induction ch with
  | nil => simp [childFind, h]
  | cons e rest ih =>
    by_cases he : e.1 = c2 <;> simp [childFind, he, ih]

/-- Effect of one `Trie.insert` on the stored frequencies: the inserted
word's node gains exactly 1, every other node is untouched. -/
theorem freqAt_insertT (w : List Char) :
    ∀ (root : TrieNode) (w2 : List Char),
      freqAt (insertT w root) w2 = freqAt root w2 + (if w2 = w then 1 else 0) := by
  induction w with
  | nil =>
    intro root w2
    cases root with
    | mk ch e f =>
      cases w2 with
      | nil => simp [insertT, freqAt, walkT, TrieNode.frequency]
      | cons c r =>
        have h1 : insertT [] (TrieNode.mk ch e f) = TrieNode.mk ch true (f + 1) := rfl
        rw [h1, freqAt_cons, freqAt_cons]
        simp [TrieNode.children]
  | cons c rest ih =>
    intro root w2
    cases root with
    | mk ch e f =>
      cases w2 with
      | nil =>
        cases hcf : childFind c ch <;>
          simp [insertT, hcf, freqAt, walkT, TrieNode.frequency]
      | cons c2 r2 =>
        by_cases hc : c2 = c
        · subst hc
          cases hcf : childFind c2 ch with
          | some t =>
            rw [freqAt_cons, freqAt_cons]
            have hrep : childFind c2 (childReplace c2 (insertT rest t) ch) =
                some (insertT rest t) := childFind_replace_eq c2 _ t ch hcf
            simp only [insertT, hcf, TrieNode.children, hrep]
            rw [ih t r2]
            by_cases hr : r2 = rest <;> simp [hr]
          | none =>
            rw [freqAt_cons, freqAt_cons]
            have happ : childFind c2 (ch ++ [(c2, insertT rest TrieNode.empty)]) =
                some (insertT rest TrieNode.empty) := childFind_append_eq c2 _ ch hcf
            simp only [insertT, hcf, TrieNode.children, happ]
            rw [ih TrieNode.empty r2, freqAt_empty]
            by_cases hr : r2 = rest <;> simp [hr]
        · have hne : ¬(c2 :: r2 = c :: rest) := by simp [hc]
          rw [freqAt_cons, freqAt_cons]
          cases hcf : childFind c ch with
          | some t =>
            have hother : childFind c2 (childReplace c (insertT rest t) ch) =
                childFind c2 ch := childFind_replace_ne c c2 _ ch hc
            simp only [insertT, hcf, TrieNode.children, hother, hne, if_false]
            cases h2 : childFind c2 ch <;> simp
          | none =>
            have hother : childFind c2 (ch ++ [(c, insertT rest TrieNode.empty)]) =
                childFind c2 ch := childFind_append_ne c c2 _ ch (fun hcc => hc hcc.symm)
            simp only [insertT, hcf, TrieNode.children, hother, hne, if_false]
            cases h2 : childFind c2 ch <;> simp

theorem freqAt_foldl_insertT (ks : List (List Char)) (t : List Char) :
    ∀ tr : TrieNode, ks.Nodup →
      freqAt (ks.foldl (fun acc k => insertT k acc) tr) t =
        freqAt tr t + (if t ∈ ks then 1 else 0) := by
  induction ks with
  | nil => intro tr _; simp
  | cons k rest ih =>
    intro tr hnd
    rcases List.nodup_cons.mp hnd with ⟨hk, hrest⟩
    rw [List.foldl_cons, ih (insertT k tr) hrest, freqAt_insertT k tr t]
    by_cases heq : t = k
    · subst heq
      simp [hk]
    · have htm : (t ∈ k :: rest) ↔ (t ∈ rest) := by simp [heq]
      by_cases hm : t ∈ rest <;> simp [heq, hm, htm]

/-! ## The tokenizer extracts exactly the maximal alphanumeric runs -/

theorem runsAux_sep (c : Char) (s : List Char) (h : isAlnum c = false) :
    runsAux (c :: s) [] = runsAux s [] := by
  simp [runsAux, h]

theorem runsAux_acc (s : List Char) :
    ∀ acc : List Char, acc ≠ [] →
      runsAux s acc =
        (acc ++ s.takeWhile isAlnum) :: runsAux (s.dropWhile isAlnum) [] := by
  induction s with
  | nil =>
    intro acc hacc
    simp [runsAux, hacc]
  | cons c rest ih =>
    intro acc hacc
    by_cases hc : isAlnum c
    · have hne : acc ++ [c] ≠ [] := by simp
      rw [show runsAux (c :: rest) acc = runsAux rest (acc ++ [c]) by simp [runsAux, hc],
        ih (acc ++ [c]) hne]
      simp [List.takeWhile_cons, List.dropWhile_cons, hc]
    · have hcb : isAlnum c = false := by simpa using hc
      rw [show runsAux (c :: rest) acc = acc :: runsAux rest [] by simp [runsAux, hcb, hacc]]
      simp [List.takeWhile_cons, List.dropWhile_cons, hcb, runsAux_sep c rest hcb]

theorem asciiRuns_sep (c : Char) (s : List Char) (h : isAlnum c = false) :
    asciiRuns (c :: s) = asciiRuns s :=
  runsAux_sep c s h

theorem asciiRuns_run (c : Char) (s : List Char) (h : isAlnum c = true) :
    asciiRuns (c :: s) =
      (c :: s.takeWhile isAlnum) :: asciiRuns (s.dropWhile isAlnum) := by
  have h1 : asciiRuns (c :: s) = runsAux s [c] := by simp [asciiRuns, runsAux, h]
  rw [h1, runsAux_acc s [c] (by simp)]
  rfl

theorem dropWhile_head_not {p : Char → Bool} (l : List Char) :
    ∀ c, (l.dropWhile p).head? = some c → p c = false := by
  induction l with
  | nil => intro c h; simp at h
  | cons a rest ih =>
    intro c h
    by_cases ha : p a
    · rw [List.dropWhile_cons_of_pos ha] at h
      exact ih c h
    · rw [List.dropWhile_cons_of_neg ha] at h
      simp at h
      rw [← h]
      simpa using ha

theorem runsSpec_asciiRuns_aux (n : Nat) :
    ∀ s : List Char, s.length ≤ n → RunsSpec s (asciiRuns s) := by
  induction n with
  | zero =>
    intro s hs
    have : s = [] := List.length_eq_zero.mp (Nat.le_zero.mp hs)
    subst this
    exact RunsSpec.nil
  | succ n ih =>
    intro s hs
    cases s with
    | nil => exact RunsSpec.nil
    | cons c rest =>
      simp only [List.length_cons, Nat.succ_le_succ_iff] at hs
      by_cases hc : isAlnum c
      · rw [asciiRuns_run c rest hc]
        have hsplit : c :: rest = (c :: rest.takeWhile isAlnum) ++ rest.dropWhile isAlnum := by
          simp [List.takeWhile_append_dropWhile]
        rw [hsplit]
        refine RunsSpec.run _ _ _ (by simp) ?_ ?_ ?_
        · intro x hx
          rcases List.mem_cons.mp hx with rfl | hx
          · exact hc
          · exact List.mem_takeWhile_imp hx
        · intro x hx
          exact dropWhile_head_not rest x hx
        · exact ih (rest.dropWhile isAlnum)
            (((List.dropWhile_sublist isAlnum).length_le).trans hs)
      · have hcb : isAlnum c = false := by simpa using hc
        rw [asciiRuns_sep c rest hcb]
        exact RunsSpec.sep c rest _ hcb (ih rest hs)

theorem runsSpec_asciiRuns (s : List Char) : RunsSpec s (asciiRuns s) :=
  runsSpec_asciiRuns_aux s.length s le_rfl

/-! ## Decomposing `add_document` -/

theorem engineFold_split (l : List (List Char × Nat)) (did : Nat) :
    ∀ (ht : HashTable (List Posting)) (tr : TrieNode),
      l.foldl (fun st tc => (indexAdd st.1 tc.1 ⟨did, tc.2⟩, insertT tc.1 st.2)) (ht, tr) =
        (l.foldl (fun h tc => indexAdd h tc.1 ⟨did, tc.2⟩) ht,
          l.foldl (fun tt tc => insertT tc.1 tt) tr) := by
  induction l with
  | nil => intro ht tr; rfl
  | cons tc rest ih =>
    intro ht tr
    simp [List.foldl_cons, ih (indexAdd ht tc.1 ⟨did, tc.2⟩) (insertT tc.1 tr)]

/-- The per-document term-count dict of search_engine.py lines 71-73. -/
theorem counts_keys (tokens : List (List Char)) :
    (foldBump [] (tokens.map (fun t => (t, 1)))).map Prod.fst = firstKeys tokens := by
  rw [foldBump_nil_fst, List.map_map]
  have : tokens.map (Prod.fst ∘ fun t => (t, (1 : Nat))) = tokens :=
    map_self_of_mem _ _ (fun a _ => rfl)
  rw [this]

theorem addDocument_components (e : Engine) (ti c fn : List Char)
    (h : ¬(tokenize c = [])) :
    (addDocument e ti c fn).1 =
      ⟨(foldBump [] ((tokenize c).map (fun t => (t, 1)))).foldl
          (fun ht tc => indexAdd ht tc.1 ⟨e.doc_counter + 1, tc.2⟩) e.inverted_index,
        (foldBump [] ((tokenize c).map (fun t => (t, 1)))).foldl
          (fun tr tc => insertT tc.1 tr) e.trie,
        e.documents ++ [(e.doc_counter + 1, ⟨ti, fn, (tokenize c).length⟩)],
        e.doc_counter + 1⟩ := by
  simp only [addDocument, if_neg h]
  rw [engineFold_split]

theorem freqAt_addDocument (e : Engine) (ti c fn t : List Char) :
    freqAt (addDocument e ti c fn).1.trie t =
      freqAt e.trie t + (if t ∈ tokenize c then 1 else 0) := by
  by_cases h : tokenize c = []
  · have : t ∉ tokenize c := by simp [h]
    simp [addDocument, h, this]
  · rw [addDocument_components e ti c fn h]
    have hfold : (foldBump [] ((tokenize c).map (fun t => (t, 1)))).foldl
        (fun tr tc => insertT tc.1 tr) e.trie =
        ((foldBump [] ((tokenize c).map (fun t => (t, 1)))).map Prod.fst).foldl
          (fun tr k => insertT k tr) e.trie := by
      rw [List.foldl_map]
    show freqAt ((foldBump [] ((tokenize c).map (fun t => (t, 1)))).foldl
        (fun tr tc => insertT tc.1 tr) e.trie) t = _
    rw [hfold, counts_keys, freqAt_foldl_insertT _ _ _ (firstKeys_nodup _)]
    congr 1
    by_cases hmem : t ∈ tokenize c <;>
      simp [hmem, (mem_firstKeys t (tokenize c))]

theorem freqAt_ingestAll (docs : List RawDoc) (t : List Char) :
    ∀ e : Engine,
      freqAt (ingestAll e docs).trie t =
        freqAt e.trie t + docs.countP (fun d => decide (t ∈ tokenize d.content)) := by
  induction docs with
  | nil => intro e; simp [ingestAll]
  | cons d rest ih =>
    intro e
    have hstep : ingestAll e (d :: rest) =
        ingestAll (addDocument e d.title d.content d.filename).1 rest := rfl
    rw [hstep, ih, freqAt_addDocument, List.countP_cons]
    by_cases hmem : t ∈ tokenize d.content
    · simp [hmem]
      omega
    · simp [hmem]

/-! ## Hash-table correctness: list utilities -/

theorem getD_set_self {β : Type} (l : List β) (d : β) :
    ∀ (i : Nat) (x : β), i < l.length → (l.set i x).getD i d = x := by
  induction l with
  | nil => intro i x h; simp at h
  | cons a rest ih =>
    intro i x h
    cases i with
    | zero => rfl
    | succ i =>
      simp only [List.set_cons_succ, List.getD_cons_succ]
      exact ih i x (by simpa using h)

theorem getD_set_ne {β : Type} (l : List β) (d : β) :
    ∀ (i j : Nat) (x : β), ¬(i = j) → (l.set i x).getD j d = l.getD j d := by
  induction l with
  | nil => intro i j x _; rfl
  | cons a rest ih =>
    intro i j x h
    cases i with
    | zero =>
      cases j with
      | zero => exact absurd rfl h
      | succ j => rfl
    | succ i =>
      cases j with
      | zero => rfl
      | succ j =>
        simp only [List.set_cons_succ, List.getD_cons_succ]
        exact ih i j x (fun hc => h (by rw [hc]))

theorem getD_replicate_nil {β : Type} (n : Nat) :
    ∀ i : Nat, (List.replicate n ([] : List β)).getD i [] = [] := by
  induction n with
  | zero => intro i; cases i <;> rfl
  | succ n ih =>
    intro i
    cases i with
    | zero => rfl
    | succ i =>
      simp only [List.replicate_succ, List.getD_cons_succ]
      exact ih i

theorem sum_map_length_replicate_nil {β : Type} (n : Nat) :
    ((List.replicate n ([] : List β)).map List.length).sum = 0 := by
  induction n with
  | zero => rfl
  | succ n ih =>
    simp only [List.replicate_succ, List.map_cons, List.sum_cons, List.length_nil]
    omega

theorem sum_map_length_set {β : Type} (bs : List (List β)) :
    ∀ (i : Nat) (b' : List β), i < bs.length →
      ((bs.set i b').map List.length).sum + (bs.getD i []).length =
        ((bs.map List.length).sum) + b'.length := by
  induction bs with
  | nil => intro i b' h; simp at h
  | cons b rest ih =>
    intro i b' h
    cases i with
    | zero => simp [List.set_cons_zero]; omega
    | succ i =>
      simp only [List.set_cons_succ, List.map_cons, List.sum_cons, List.getD_cons_succ]
      have := ih i b' (by simpa using h)
      omega

theorem hashF_lt (cap : Nat) (k : List Char) (h : 0 < cap) : hashF cap k < cap := by
  have aux : ∀ (l : List Char) (h0 : Nat), h0 < cap →
      l.foldl (fun a c => (a * 31 + c.toNat) % cap) h0 < cap := by
    intro l
    induction l with
    | nil => intro h0 hh; exact hh
    | cons c rest ih =>
      intro h0 _
      exact ih _ (Nat.mod_lt _ h)
  exact aux k 0 h

/-! ## Hash-table correctness: bucket-chain lemmas -/

theorem bucketFind_eq_none {α : Type} (b : List (List Char × α)) (k : List Char) :
    bucketFind b k = none ↔ k ∉ b.map Prod.fst := by
  induction b with
  | nil => simp [bucketFind]
  | cons kv rest ih =>
    by_cases hkv : kv.1 = k
    · simp only [bucketFind, if_pos hkv, List.map_cons, List.mem_cons]
      constructor
      · intro h
        cases h
      · intro h
        exact absurd (Or.inl hkv.symm) h
    · have hks : ¬(k = kv.1) := Ne.symm hkv
      simp only [bucketFind, if_neg hkv, List.map_cons, List.mem_cons, ih]
      constructor
      · intro h hc
        rcases hc with hc | hc
        · exact hks hc
        · exact h hc
      · intro h hc
        exact h (Or.inr hc)

theorem bucketFind_append_self {α : Type} (b : List (List Char × α)) (k : List Char) (v : α)
    (h : bucketFind b k = none) : bucketFind (b ++ [(k, v)]) k = some (k, v) := by
  induction b with
  | nil => simp [bucketFind]
  | cons kv rest ih =>
    by_cases hkv : kv.1 = k
    · simp [bucketFind, hkv] at h
    · simp only [bucketFind, hkv, if_neg hkv] at h
      simp [List.cons_append, bucketFind, hkv, ih h]

theorem bucketFind_append_ne {α : Type} (b : List (List Char × α)) (k k2 : List Char) (v : α)
    (h : ¬(k2 = k)) : bucketFind (b ++ [(k, v)]) k2 = bucketFind b k2 := by
  induction b with
  | nil =>
    have hks : ¬(k = k2) := Ne.symm h
    simp [bucketFind, hks]
  | cons kv rest ih =>
    by_cases hkv : kv.1 = k2 <;> simp [List.cons_append, bucketFind, hkv, ih]

theorem overwriteFirst_find_self {α : Type} (b : List (List Char × α)) (k : List Char)
    (v : α) (u : List Char × α) (h : bucketFind b k = some u) :
    bucketFind (overwriteFirst b k v) k = some (k, v) := by
  induction b with
  | nil => simp [bucketFind] at h
  | cons kv rest ih =>
    by_cases hkv : kv.1 = k
    · simp [overwriteFirst, hkv, bucketFind]
    · simp only [bucketFind, if_neg hkv] at h
      simp [overwriteFirst, hkv, bucketFind, ih h]

theorem overwriteFirst_find_ne {α : Type} (b : List (List Char × α)) (k k2 : List Char)
    (v : α) (h : ¬(k2 = k)) :
    bucketFind (overwriteFirst b k v) k2 = bucketFind b k2 := by
  induction b with
  | nil => rfl
  | cons kv rest ih =>
    by_cases hkv : kv.1 = k
    · have h2 : ¬(k = k2) := fun hc => h hc.symm
      have h3 : ¬(kv.1 = k2) := by rw [hkv]; exact h2
      simp [overwriteFirst, hkv, bucketFind, h2, h3]
    · by_cases hk2 : kv.1 = k2 <;> simp [overwriteFirst, hkv, bucketFind, hk2, h, ih]

theorem overwriteFirst_map_fst {α : Type} (b : List (List Char × α)) (k : List Char)
    (v : α) : (overwriteFirst b k v).map Prod.fst = b.map Prod.fst := by
  induction b with
  | nil => rfl
  | cons kv rest ih =>
    by_cases hkv : kv.1 = k
    · simp [overwriteFirst, hkv]
    · simp [overwriteFirst, hkv, ih]

theorem overwriteFirst_length {α : Type} (b : List (List Char × α)) (k : List Char)
    (v : α) : (overwriteFirst b k v).length = b.length := by
  induction b with
  | nil => rfl
  | cons kv rest ih =>
    by_cases hkv : kv.1 = k <;> simp [overwriteFirst, hkv, ih]

theorem overwriteFirst_mem {α : Type} (b : List (List Char × α)) (k : List Char) (v : α) :
    ∀ kv ∈ overwriteFirst b k v, kv ∈ b ∨ kv = (k, v) := by
  induction b with
  | nil => intro kv h; simp [overwriteFirst] at h
  | cons e rest ih =>
    intro kv h
    by_cases he : e.1 = k
    · simp only [overwriteFirst, if_pos he] at h
      rcases List.mem_cons.mp h with rfl | h
      · exact Or.inr rfl
      · exact Or.inl (List.mem_cons_of_mem e h)
    · simp only [overwriteFirst, if_neg he] at h
      rcases List.mem_cons.mp h with rfl | h
      · exact Or.inl (List.mem_cons_self _ _)
      · rcases ih kv h with h2 | h2
        · exact Or.inl (List.mem_cons_of_mem e h2)
        · exact Or.inr h2

/-! ## Hash-table correctness: one `setRaw` step -/

theorem setRaw_eq_overwrite {α : Type} (ht : HashTable α) (k : List Char) (v : α)
    (u : List Char × α)
    (h : bucketFind (ht.buckets.getD (hashF ht.capacity k) []) k = some u) :
    ht.setRaw k v =
      ⟨ht.capacity,
        ht.buckets.set (hashF ht.capacity k)
          (overwriteFirst (ht.buckets.getD (hashF ht.capacity k) []) k v),
        ht.size⟩ := by
  simp only [HashTable.setRaw, h]

theorem setRaw_eq_append {α : Type} (ht : HashTable α) (k : List Char) (v : α)
    (h : bucketFind (ht.buckets.getD (hashF ht.capacity k) []) k = none) :
    ht.setRaw k v =
      ⟨ht.capacity,
        ht.buckets.set (hashF ht.capacity k)
          ((ht.buckets.getD (hashF ht.capacity k) []) ++ [(k, v)]),
        ht.size + 1⟩ := by
  simp only [HashTable.setRaw, h]

theorem get_mk {α : Type} (cap : Nat) (bs : List (List (List Char × α))) (sz : Nat)
    (k : List Char) :
    HashTable.get ⟨cap, bs, sz⟩ k =
      (bucketFind (bs.getD (hashF cap k) []) k).map Prod.snd := rfl

theorem get_def {α : Type} (ht : HashTable α) (k : List Char) :
    ht.get k =
      (bucketFind (ht.buckets.getD (hashF ht.capacity k) []) k).map Prod.snd := rfl

theorem setRaw_spec {α : Type} (ht : HashTable α) (k : List Char) (v : α) (hc : HTCore ht) :
    HTCore (ht.setRaw k v) ∧
      (ht.setRaw k v).capacity = ht.capacity ∧
      (ht.setRaw k v).get k = some v ∧
      (∀ k2, ¬(k2 = k) → (ht.setRaw k v).get k2 = ht.get k2) ∧
      (ht.setRaw k v).size = ht.size + (if (ht.get k).isSome then 0 else 1) := by
  have hi : hashF ht.capacity k < ht.buckets.length := by
    rw [hc.blen]
    exact hashF_lt ht.capacity k hc.cpos
  cases hbf : bucketFind (ht.buckets.getD (hashF ht.capacity k) []) k with
  | some u =>
    rw [setRaw_eq_overwrite ht k v u hbf]
    have hgetk : ht.get k = some u.2 := by rw [get_def, hbf]; rfl
    refine ⟨?_, rfl, ?_, ?_, ?_⟩
    · refine ⟨hc.cpos, ?_, ?_, ?_, ?_⟩
      · simpa using hc.blen
      · intro j kv hkv
        by_cases hj : hashF ht.capacity k = j
        · rw [← hj] at hkv ⊢
          rw [getD_set_self _ _ _ _ hi] at hkv
          rcases overwriteFirst_mem _ k v kv hkv with hm | hm
          · exact hc.placed _ kv hm
          · rw [hm]
        · rw [getD_set_ne _ _ _ _ _ hj] at hkv
          exact hc.placed j kv hkv
      · intro j
        by_cases hj : hashF ht.capacity k = j
        · rw [← hj, getD_set_self _ _ _ _ hi, overwriteFirst_map_fst]
          exact hc.bnodup _
        · rw [getD_set_ne _ _ _ _ _ hj]
          exact hc.bnodup j
      · have hsum := sum_map_length_set ht.buckets (hashF ht.capacity k)
          (overwriteFirst (ht.buckets.getD (hashF ht.capacity k) []) k v) hi
        rw [overwriteFirst_length] at hsum
        have hsz := hc.szOK
        show ht.size = ((ht.buckets.set (hashF ht.capacity k)
          (overwriteFirst (ht.buckets.getD (hashF ht.capacity k) []) k v)).map
            List.length).sum
        omega
    · rw [get_mk, getD_set_self _ _ _ _ hi,
        overwriteFirst_find_self _ k v u hbf]
      rfl
    · intro k2 hk2
      rw [get_mk]
      by_cases hj : hashF ht.capacity k = hashF ht.capacity k2
      · rw [← hj, getD_set_self _ _ _ _ hi, overwriteFirst_find_ne _ k k2 v hk2,
          get_def, ← hj]
      · rw [getD_set_ne _ _ _ _ _ hj, get_def]
    · simp [hgetk]
  | none =>
    rw [setRaw_eq_append ht k v hbf]
    have hgetk : ht.get k = none := by rw [get_def, hbf]; rfl
    have hknotin : k ∉ (ht.buckets.getD (hashF ht.capacity k) []).map Prod.fst :=
      (bucketFind_eq_none _ k).mp hbf
    refine ⟨?_, rfl, ?_, ?_, ?_⟩
    · refine ⟨hc.cpos, ?_, ?_, ?_, ?_⟩
      · simpa using hc.blen
      · intro j kv hkv
        by_cases hj : hashF ht.capacity k = j
        · rw [← hj] at hkv ⊢
          rw [getD_set_self _ _ _ _ hi] at hkv
          rcases List.mem_append.mp hkv with hm | hm
          · exact hc.placed _ kv hm
          · have hkv2 : kv = (k, v) := by simpa using hm
            rw [hkv2]
        · rw [getD_set_ne _ _ _ _ _ hj] at hkv
          exact hc.placed j kv hkv
      · intro j
        by_cases hj : hashF ht.capacity k = j
        · rw [← hj, getD_set_self _ _ _ _ hi]
          simp only [List.map_append, List.map_cons, List.map_nil]
          rw [List.nodup_append]
          refine ⟨hc.bnodup _, List.nodup_singleton k, ?_⟩
          intro a ha hb
          have hab : a = k := by simpa using hb
          exact hknotin (hab ▸ ha)
        · rw [getD_set_ne _ _ _ _ _ hj]
          exact hc.bnodup j
      · have hsum := sum_map_length_set ht.buckets (hashF ht.capacity k)
          ((ht.buckets.getD (hashF ht.capacity k) []) ++ [(k, v)]) hi
        rw [List.length_append] at hsum
        have hsz := hc.szOK
        simp only [List.length_singleton] at hsum
        show ht.size + 1 = ((ht.buckets.set (hashF ht.capacity k)
          ((ht.buckets.getD (hashF ht.capacity k) []) ++ [(k, v)])).map List.length).sum
        omega
    · rw [get_mk, getD_set_self _ _ _ _ hi, bucketFind_append_self _ k v hbf]
      rfl
    · intro k2 hk2
      rw [get_mk]
      by_cases hj : hashF ht.capacity k = hashF ht.capacity k2
      · rw [← hj, getD_set_self _ _ _ _ hi, bucketFind_append_ne _ k k2 v hk2,
          get_def, ← hj]
      · rw [getD_set_ne _ _ _ _ _ hj, get_def]
    · simp [hgetk]

/-! ## Hash-table correctness: rehashing into a fresh table -/

theorem freshTable_core {α : Type} (cap : Nat) (h : 0 < cap) :
    HTCore (⟨cap, List.replicate cap [], 0⟩ : HashTable α) := by
  refine ⟨h, by simp, ?_, ?_, ?_⟩
  · intro i kv hkv
    rw [getD_replicate_nil] at hkv
    simp at hkv
  · intro i
    rw [getD_replicate_nil]
    simp
  · rw [show (⟨cap, List.replicate cap [], 0⟩ : HashTable α).size = 0 from rfl]
    rw [show (⟨cap, List.replicate cap [], 0⟩ : HashTable α).buckets =
      List.replicate cap [] from rfl]
    rw [sum_map_length_replicate_nil]

theorem freshTable_get {α : Type} (cap : Nat) (k : List Char) :
    (⟨cap, List.replicate cap [], 0⟩ : HashTable α).get k = none := by
  rw [get_mk, getD_replicate_nil]
  rfl

theorem assocFind_eq_none_of_not_mem {α : Type} (es : List (List Char × α))
    (k : List Char) (h : k ∉ es.map Prod.fst) : assocFind es k = none := by
  induction es with
  | nil => rfl
  | cons kv rest ih =>
    simp only [List.map_cons, List.mem_cons] at h
    push_neg at h
    have h1 : ¬(kv.1 = k) := fun hc => h.1 hc.symm
    simp [assocFind, h1, ih h.2]

theorem applyRaw_fresh {α : Type} (es : List (List Char × α)) :
    ∀ T : HashTable α, HTCore T → (es.map Prod.fst).Nodup →
      (∀ kv ∈ es, T.get kv.1 = none) →
      HTCore (es.foldl (fun acc kv => acc.setRaw kv.1 kv.2) T) ∧
        (es.foldl (fun acc kv => acc.setRaw kv.1 kv.2) T).capacity = T.capacity ∧
        (es.foldl (fun acc kv => acc.setRaw kv.1 kv.2) T).size = T.size + es.length ∧
        (∀ k, (es.foldl (fun acc kv => acc.setRaw kv.1 kv.2) T).get k =
          (match assocFind es k with
            | some v => some v
            | none => T.get k)) := by
  induction es with
  | nil =>
    intro T hT _ _
    exact ⟨hT, rfl, by simp, fun k => by simp [assocFind]⟩
  | cons kv rest ih =>
    intro T hT hnd habs
    obtain ⟨hT1, hcap1, hget1, hother1, hsz1⟩ := setRaw_spec T kv.1 kv.2 hT
    have hkvnone : T.get kv.1 = none := habs kv (List.mem_cons_self kv rest)
    simp only [List.map_cons, List.nodup_cons] at hnd
    have habs1 : ∀ kv2 ∈ rest, (T.setRaw kv.1 kv.2).get kv2.1 = none := by
      intro kv2 hkv2
      have hne : ¬(kv2.1 = kv.1) := by
        intro hc
        exact hnd.1 (hc ▸ List.mem_map_of_mem Prod.fst hkv2)
      rw [hother1 kv2.1 hne]
      exact habs kv2 (List.mem_cons_of_mem _ hkv2)
    obtain ⟨hc2, hcap2, hsz2, hget2⟩ :=
      ih (T.setRaw kv.1 kv.2) hT1 hnd.2 habs1
    rw [List.foldl_cons]
    refine ⟨hc2, hcap2.trans hcap1, ?_, ?_⟩
    · rw [hsz2, hsz1, hkvnone]
      simp only [Option.isSome_none, Bool.false_eq_true, if_false, List.length_cons]
      omega
    · intro k
      rw [hget2 k]
      by_cases hk : kv.1 = k
      · subst hk
        have hcons : assocFind (kv :: rest) kv.1 = some kv.2 := by
          simp [assocFind]
        rw [hcons]
        have hkr : assocFind rest kv.1 = none :=
          assocFind_eq_none_of_not_mem _ _ hnd.1
        rw [hkr]
        exact hget1
      · simp only [assocFind, if_neg hk]
        cases har : assocFind rest k with
        | some w => rfl
        | none => exact hother1 k (fun hc => hk hc.symm)

theorem entries_nodup {α : Type} (ht : HashTable α) (h : HTCore ht) :
    ((entriesOf ht).map Prod.fst).Nodup := by
  rw [entriesOf, List.map_flatten]
  rw [List.nodup_flatten]
  constructor
  · intro l hl
    rcases List.mem_map.mp hl with ⟨b, hb, rfl⟩
    rcases List.mem_iff_getElem.mp hb with ⟨i, hi, rfl⟩
    have := h.bnodup i
    rwa [List.getD_eq_getElem ht.buckets [] hi] at this
  · rw [List.pairwise_iff_getElem]
    intro i j hi hj hij
    simp only [List.length_map] at hi hj
    intro a hai haj
    simp only [List.getElem_map] at hai haj
    rcases List.mem_map.mp hai with ⟨kv1, hkv1, rfl⟩
    rcases List.mem_map.mp haj with ⟨kv2, hkv2, hfst⟩
    have h1 : hashF ht.capacity kv1.1 = i := by
      apply h.placed i
      rwa [List.getD_eq_getElem ht.buckets [] hi]
    have h2 : hashF ht.capacity kv2.1 = j := by
      apply h.placed j
      rwa [List.getD_eq_getElem ht.buckets [] hj]
    rw [hfst] at h2
    omega

theorem assocFind_of_mem_nodup {α : Type} (es : List (List Char × α)) (kv : List Char × α)
    (hnd : (es.map Prod.fst).Nodup) (hmem : kv ∈ es) :
    assocFind es kv.1 = some kv.2 := by
  induction es with
  | nil => simp at hmem
  | cons e rest ih =>
    simp only [List.map_cons, List.nodup_cons] at hnd
    rcases List.mem_cons.mp hmem with rfl | hmem
    · simp [assocFind]
    · have hne : ¬(e.1 = kv.1) := by
        intro hc
        exact hnd.1 (hc ▸ List.mem_map_of_mem Prod.fst hmem)
      simp [assocFind, hne, ih hnd.2 hmem]

theorem mem_flatten_bucket {α : Type} (ht : HashTable α) (h : HTCore ht)
    (kv : List Char × α) (hkv : kv ∈ entriesOf ht) :
    kv ∈ ht.buckets.getD (hashF ht.capacity kv.1) [] := by
  rcases List.mem_flatten.mp hkv with ⟨b, hb, hkvb⟩
  rcases List.mem_iff_getElem.mp hb with ⟨i, hi, rfl⟩
  have hplace : hashF ht.capacity kv.1 = i := by
    apply h.placed i
    rwa [List.getD_eq_getElem ht.buckets [] hi]
  rw [hplace, List.getD_eq_getElem ht.buckets [] hi]
  exact hkvb

theorem bucketFind_some_key {α : Type} (b : List (List Char × α)) (k : List Char)
    (u : List Char × α) (h : bucketFind b k = some u) : u.1 = k := by
  induction b with
  | nil => simp [bucketFind] at h
  | cons e rest ih =>
    by_cases he : e.1 = k
    · simp only [bucketFind, if_pos he] at h
      cases h
      exact he
    · simp only [bucketFind, if_neg he] at h
      exact ih h

theorem bucketFind_some_mem {α : Type} (b : List (List Char × α)) (k : List Char)
    (u : List Char × α) (h : bucketFind b k = some u) : u ∈ b := by
  induction b with
  | nil => simp [bucketFind] at h
  | cons e rest ih =>
    by_cases he : e.1 = k
    · simp only [bucketFind, if_pos he] at h
      cases h
      exact List.mem_cons_self _ _
    · simp only [bucketFind, if_neg he] at h
      exact List.mem_cons_of_mem _ (ih h)

/-- Under the consistency invariant, scanning the flattened entry list finds
exactly what the bucketed lookup finds. -/
theorem assocFind_entriesOf {α : Type} (ht : HashTable α) (h : HTCore ht) (k : List Char) :
    assocFind (entriesOf ht) k = ht.get k := by
  cases hg : ht.get k with
  | some v =>
    rw [get_def] at hg
    cases hbf : bucketFind (ht.buckets.getD (hashF ht.capacity k) []) k with
    | none => rw [hbf] at hg; simp at hg
    | some u =>
      have hu1 : u.1 = k := bucketFind_some_key _ k u hbf
      have humem : u ∈ entriesOf ht := by
        have hbm : u ∈ ht.buckets.getD (hashF ht.capacity k) [] :=
          bucketFind_some_mem _ k u hbf
        have hblt : hashF ht.capacity k < ht.buckets.length := by
          rw [h.blen]
          exact hashF_lt ht.capacity k h.cpos
        rw [entriesOf]
        apply List.mem_flatten.mpr
        refine ⟨ht.buckets.getD (hashF ht.capacity k) [], ?_, hbm⟩
        rw [List.getD_eq_getElem ht.buckets [] hblt]
        exact List.getElem_mem hblt
      have hfind := assocFind_of_mem_nodup (entriesOf ht) u (entries_nodup ht h) humem
      rw [hu1] at hfind
      rw [hfind]
      rw [hbf] at hg
      exact hg
  | none =>
    apply assocFind_eq_none_of_not_mem
    intro hkmem
    rcases List.mem_map.mp hkmem with ⟨kv, hkv, rfl⟩
    have hb := mem_flatten_bucket ht h kv hkv
    rw [get_def] at hg
    cases hbf : bucketFind (ht.buckets.getD (hashF ht.capacity kv.1) []) kv.1 with
    | some u => rw [hbf] at hg; simp at hg
    | none =>
      have hnone := (bucketFind_eq_none _ kv.1).mp hbf
      exact hnone (List.mem_map_of_mem Prod.fst hb)

theorem resize_spec {α : Type} (ht : HashTable α) (h : HTCore ht) :
    HTCore ht.resize ∧ ht.resize.capacity = ht.capacity * 2 ∧
      ht.resize.size = ht.size ∧ ∀ k, ht.resize.get k = ht.get k := by
  have hfresh : HTCore
      (⟨ht.capacity * 2, List.replicate (ht.capacity * 2) [], 0⟩ : HashTable α) := by
    apply freshTable_core
    have := h.cpos
    omega
  have hnd : ((entriesOf ht).map Prod.fst).Nodup := entries_nodup ht h
  have habs : ∀ kv ∈ entriesOf ht,
      (⟨ht.capacity * 2, List.replicate (ht.capacity * 2) [], 0⟩ : HashTable α).get kv.1 =
        none := fun kv _ => freshTable_get _ _
  obtain ⟨hc, hcap, hsz, hget⟩ := applyRaw_fresh (entriesOf ht) _ hfresh hnd habs
  have hlen : (entriesOf ht).length = ht.size := by
    rw [entriesOf, List.length_flatten, h.szOK]
  refine ⟨hc, hcap, ?_, ?_⟩
  · rw [show ht.resize = (entriesOf ht).foldl (fun acc kv => acc.setRaw kv.1 kv.2)
      ⟨ht.capacity * 2, List.replicate (ht.capacity * 2) [], 0⟩ from rfl, hsz, hlen]
    show 0 + ht.size = ht.size
    omega
  · intro k
    rw [show ht.resize = (entriesOf ht).foldl (fun acc kv => acc.setRaw kv.1 kv.2)
      ⟨ht.capacity * 2, List.replicate (ht.capacity * 2) [], 0⟩ from rfl, hget k,
      assocFind_entriesOf ht h k]
    cases hg : ht.get k with
    | some v => rfl
    | none => exact freshTable_get _ _

theorem setRaw_size_le {α : Type} (ht : HashTable α) (k : List Char) (v : α) :
    (ht.setRaw k v).size ≤ ht.size + 1 := by
  cases hbf : bucketFind (ht.buckets.getD (hashF ht.capacity k) []) k with
  | some u =>
    rw [setRaw_eq_overwrite ht k v u hbf]
    show ht.size ≤ ht.size + 1
    omega
  | none =>
    rw [setRaw_eq_append ht k v hbf]

theorem foldRaw_size_le {α : Type} (es : List (List Char × α)) :
    ∀ T : HashTable α,
      (es.foldl (fun acc kv => acc.setRaw kv.1 kv.2) T).size ≤ T.size + es.length := by
  induction es with
  | nil => intro T; simp
  | cons kv rest ih =>
    intro T
    rw [List.foldl_cons]
    calc (rest.foldl (fun acc kv => acc.setRaw kv.1 kv.2) (T.setRaw kv.1 kv.2)).size
        ≤ (T.setRaw kv.1 kv.2).size + rest.length := ih _
      _ ≤ T.size + 1 + rest.length := by
          have := setRaw_size_le T kv.1 kv.2
          omega
      _ = T.size + (kv :: rest).length := by simp; omega

/-- Fidelity of the `resize` model: the source's `_resize` re-inserts through
`self.set`, whose load check could in principle recurse; from any consistent
table whose entry count is within the doubled capacity's load bound, the
check is false at every intermediate step of the rehash loop, so modelling
the re-insertions with `setRaw` is exact. -/
theorem resize_check_dead {α : Type} (ht : HashTable α) (h : HTCore ht)
    (hload : 4 * ht.size ≤ 6 * ht.capacity) :
    ∀ es1 es2 : List (List Char × α), entriesOf ht = es1 ++ es2 →
      ¬(4 * ((es1.foldl (fun acc kv => acc.setRaw kv.1 kv.2)
          (⟨ht.capacity * 2, List.replicate (ht.capacity * 2) [], 0⟩ : HashTable α)).size) >
        3 * (ht.capacity * 2)) := by
  intro es1 es2 hsplit
  have h1 : (es1.foldl (fun acc kv => acc.setRaw kv.1 kv.2)
      (⟨ht.capacity * 2, List.replicate (ht.capacity * 2) [], 0⟩ : HashTable α)).size ≤
      0 + es1.length := foldRaw_size_le es1 _
  have h2 : es1.length ≤ (entriesOf ht).length := by
    rw [hsplit, List.length_append]
    omega
  have h3 : (entriesOf ht).length = ht.size := by
    rw [entriesOf, List.length_flatten, h.szOK]
  omega

/-! ## Hash-table correctness: full `set` -/

theorem set_spec {α : Type} (ht : HashTable α) (k : List Char) (v : α) (h : HTWF ht) :
    HTWF (ht.set k v) ∧
      (ht.set k v).get k = some v ∧
      (∀ k2, ¬(k2 = k) → (ht.set k v).get k2 = ht.get k2) ∧
      (ht.set k v).size = ht.size + (if (ht.get k).isSome then 0 else 1) := by
  obtain ⟨hcore, hcap8, hload⟩ := h
  obtain ⟨hc, hcap, hgk, hgo, hsz⟩ := setRaw_spec ht k v hcore
  cases hbf : bucketFind (ht.buckets.getD (hashF ht.capacity k) []) k with
  | some u =>
    have hset : ht.set k v = ht.setRaw k v := by
      simp only [HashTable.set, hbf]
    have hgsome : ht.get k = some u.2 := by rw [get_def, hbf]; rfl
    rw [hset]
    refine ⟨⟨hc, ?_, ?_⟩, hgk, hgo, hsz⟩
    · rw [hcap]
      exact hcap8
    · rw [hcap, hsz, hgsome]
      simp only [Option.isSome_some, if_true]
      omega
  | none =>
    have hgnone : ht.get k = none := by rw [get_def, hbf]; rfl
    have hsz1 : (ht.setRaw k v).size = ht.size + 1 := by
      rw [hsz, hgnone]
      rfl
    by_cases htrig : 4 * (ht.setRaw k v).size > 3 * (ht.setRaw k v).capacity
    · have hset : ht.set k v = (ht.setRaw k v).resize := by
        simp only [HashTable.set, hbf, if_pos htrig]
      obtain ⟨hrc, hrcap, hrsz, hrget⟩ := resize_spec (ht.setRaw k v) hc
      rw [hset]
      refine ⟨⟨hrc, ?_, ?_⟩, ?_, ?_, ?_⟩
      · rw [hrcap, hcap]
        omega
      · rw [hrsz, hsz1, hrcap, hcap]
        omega
      · rw [hrget k]
        exact hgk
      · intro k2 hk2
        rw [hrget k2]
        exact hgo k2 hk2
      · rw [hrsz, hsz1, hgnone]
        rfl
    · have hset : ht.set k v = ht.setRaw k v := by
        simp only [HashTable.set, hbf, if_neg htrig]
      rw [hset]
      refine ⟨⟨hc, ?_, ?_⟩, hgk, hgo, hsz⟩
      · rw [hcap]
        exact hcap8
      · omega

/-! ## Hash-table correctness: reachable states -/

theorem empty_core {α : Type} (c : Nat) : HTCore (HashTable.empty c : HashTable α) := by
  have h : HTCore (⟨max 8 c, List.replicate (max 8 c) [], 0⟩ : HashTable α) :=
    freshTable_core (max 8 c) (by omega)
  exact h

theorem empty_WF {α : Type} (c : Nat) : HTWF (HashTable.empty c : HashTable α) := by
  refine ⟨empty_core c, ?_, ?_⟩
  · exact Nat.le_max_left 8 c
  · show 4 * 0 ≤ 3 * max 8 c
    have := Nat.le_max_left 8 c
    omega

theorem get_empty {α : Type} (c : Nat) (k : List Char) :
    (HashTable.empty c : HashTable α).get k = none :=
  freshTable_get (max 8 c) k

theorem applyOps_WF {α : Type} (ops : List (List Char × α)) :
    ∀ ht : HashTable α, HTWF ht → HTWF (applyOps ht ops) := by
  induction ops with
  | nil => intro ht h; exact h
  | cons kv rest ih =>
    intro ht h
    exact ih (ht.set kv.1 kv.2) (set_spec ht kv.1 kv.2 h).1

theorem applyOps_get_other {α : Type} (ops : List (List Char × α)) (k : List Char)
    (hops : ∀ kv ∈ ops, ¬(kv.1 = k)) :
    ∀ ht : HashTable α, HTWF ht → (applyOps ht ops).get k = ht.get k := by
  induction ops with
  | nil => intro ht _; rfl
  | cons kv rest ih =>
    intro ht h
    obtain ⟨hwf, _, hother, _⟩ := set_spec ht kv.1 kv.2 h
    have hrest : ∀ kv2 ∈ rest, ¬(kv2.1 = k) :=
      fun kv2 hkv2 => hops kv2 (List.mem_cons_of_mem _ hkv2)
    rw [show applyOps ht (kv :: rest) = applyOps (ht.set kv.1 kv.2) rest from rfl,
      ih hrest (ht.set kv.1 kv.2) hwf]
    exact hother k (fun hc => hops kv (List.mem_cons_self kv rest) hc.symm)

theorem applyOps_fresh {α : Type} (kvs : List (List Char × α)) :
    ∀ T : HashTable α, HTWF T → (kvs.map Prod.fst).Nodup →
      (∀ kv ∈ kvs, T.get kv.1 = none) →
      HTWF (applyOps T kvs) ∧ (applyOps T kvs).size = T.size + kvs.length ∧
        (∀ kv ∈ kvs, (applyOps T kvs).get kv.1 = some kv.2) := by
  induction kvs with
  | nil =>
    intro T hT _ _
    exact ⟨hT, by simp [applyOps], by intro kv hkv; simp at hkv⟩
  | cons kv rest ih =>
    intro T hT hnd habs
    obtain ⟨hT1, hget1, hother1, hsz1⟩ := set_spec T kv.1 kv.2 hT
    have hkvnone : T.get kv.1 = none := habs kv (List.mem_cons_self kv rest)
    simp only [List.map_cons, List.nodup_cons] at hnd
    have habs1 : ∀ kv2 ∈ rest, (T.set kv.1 kv.2).get kv2.1 = none := by
      intro kv2 hkv2
      have hne : ¬(kv2.1 = kv.1) := by
        intro hc
        exact hnd.1 (hc ▸ List.mem_map_of_mem Prod.fst hkv2)
      rw [hother1 kv2.1 hne]
      exact habs kv2 (List.mem_cons_of_mem _ hkv2)
    obtain ⟨hwf2, hsz2, hget2⟩ := ih (T.set kv.1 kv.2) hT1 hnd.2 habs1
    have hstep : applyOps T (kv :: rest) = applyOps (T.set kv.1 kv.2) rest := rfl
    refine ⟨hstep ▸ hwf2, ?_, ?_⟩
    · rw [hstep, hsz2, hsz1, hkvnone]
      simp only [Option.isSome_none, Bool.false_eq_true, if_false, List.length_cons]
      omega
    · intro kv2 hkv2
      rcases List.mem_cons.mp hkv2 with rfl | hkv2
      · have hrest : ∀ kv3 ∈ rest, ¬(kv3.1 = kv2.1) := by
          intro kv3 hkv3 hc
          exact hnd.1 (hc ▸ List.mem_map_of_mem Prod.fst hkv3)
        rw [hstep, applyOps_get_other rest kv2.1 hrest _ hT1]
        exact hget1
      · rw [hstep]
        exact hget2 kv2 hkv2

theorem countP_key_zero {α : Type} (es : List (List Char × α)) (k : List Char)
    (h : k ∉ es.map Prod.fst) : es.countP (fun kv => kv.1 == k) = 0 := by
  induction es with
  | nil => rfl
  | cons e rest ih =>
    simp only [List.map_cons, List.mem_cons] at h
    push_neg at h
    have h1 : ¬((e.1 == k) = true) := by
      simp only [beq_iff_eq]
      exact fun hc => h.1 hc.symm
    rw [List.countP_cons, ih h.2]
    simp [h1]

theorem countP_key_one {α : Type} (es : List (List Char × α)) (k : List Char)
    (hnd : (es.map Prod.fst).Nodup) (hmem : k ∈ es.map Prod.fst) :
    es.countP (fun kv => kv.1 == k) = 1 := by
  induction es with
  | nil => simp at hmem
  | cons e rest ih =>
    simp only [List.map_cons, List.nodup_cons] at hnd
    simp only [List.map_cons, List.mem_cons] at hmem
    by_cases he : e.1 = k
    · have hnot : k ∉ rest.map Prod.fst := he ▸ hnd.1
      rw [List.countP_cons, countP_key_zero rest k hnot]
      simp [he]
    · have hmem2 : k ∈ rest.map Prod.fst := by
        rcases hmem with hc | hc
        · exact absurd hc.symm he
        · exact hc
      have h1 : ¬((e.1 == k) = true) := by
        simp only [beq_iff_eq]
        exact he
      rw [List.countP_cons, ih hnd.2 hmem2]
      simp [h1]

theorem assocFind_isSome_mem {α : Type} (es : List (List Char × α)) (k : List Char)
    (v : α) (h : assocFind es k = some v) : k ∈ es.map Prod.fst := by
  induction es with
  | nil => simp [assocFind] at h
  | cons e rest ih =>
    by_cases he : e.1 = k
    · rw [List.map_cons]
      exact List.mem_cons.mpr (Or.inl he.symm)
    · simp only [assocFind, if_neg he] at h
      exact List.mem_cons_of_mem _ (ih h)

theorem keyCount_eq_one {α : Type} (ht : HashTable α) (k : List Char) (h : HTCore ht)
    (v : α) (hs : ht.get k = some v) : keyCount ht k = 1 := by
  have hfind : assocFind (entriesOf ht) k = some v := by
    rw [assocFind_entriesOf ht h k]
    exact hs
  exact countP_key_one (entriesOf ht) k (entries_nodup ht h)
    (assocFind_isSome_mem _ k v hfind)

/-- C3: `get(key)` after `set(key, v)` returns `v` on every table reachable
by `set` operations from an empty table; `set` on an existing key overwrites
in place (exactly one stored entry for the key afterwards, and `size` grows
only when the key was absent); and the round trip survives any further
insertions of other keys, including insertions that trigger resizes. -/
theorem claim3_set_get_roundtrip (c : Nat) (ops0 ops1 : List (List Char × Nat))
    (k : List Char) (v : Nat) :
    (applyOps ((applyOps (HashTable.empty c : HashTable Nat) ops0).set k v)
        (ops1.filter (fun kv => !(decide (kv.1 = k))))).get k = some v ∧
      keyCount ((applyOps (HashTable.empty c : HashTable Nat) ops0).set k v) k = 1 ∧
      ((applyOps (HashTable.empty c : HashTable Nat) ops0).set k v).size =
        (applyOps (HashTable.empty c : HashTable Nat) ops0).size +
          (if ((applyOps (HashTable.empty c : HashTable Nat) ops0).get k).isSome
            then 0 else 1) := by
  have hT : HTWF (applyOps (HashTable.empty c : HashTable Nat) ops0) :=
    applyOps_WF ops0 _ (empty_WF c)
  obtain ⟨hwf, hget, hother, hsz⟩ := set_spec _ k v hT
  refine ⟨?_, ?_, hsz⟩
  · have hfilter : ∀ kv ∈ ops1.filter (fun kv => !(decide (kv.1 = k))), ¬(kv.1 = k) := by
      intro kv hkv
      have := List.of_mem_filter hkv
      simpa using this
    rw [applyOps_get_other _ k hfilter _ hwf]
    exact hget
  · exact keyCount_eq_one _ k hwf.1 v hget

/-- C4: inserting any list of distinct keys into a Chained Map started at
capacity 8 yields `size` equal to the number of keys and every key
retrievable with its value: rehashing on growth drops nothing and
duplicates nothing. -/
theorem claim4_resize_preserves_entries (kvs : List (List Char × Nat))
    (hnd : (kvs.map Prod.fst).Nodup) :
    (applyOps (HashTable.empty 8 : HashTable Nat) kvs).size = kvs.length ∧
      ∀ kv ∈ kvs, (applyOps (HashTable.empty 8 : HashTable Nat) kvs).get kv.1 =
        some kv.2 := by
  obtain ⟨_, hsz, hget⟩ := applyOps_fresh kvs _ (empty_WF 8) hnd
    (fun kv _ => get_empty 8 kv.1)
  refine ⟨?_, hget⟩
  rw [hsz]
  show 0 + kvs.length = kvs.length
  omega

/-- Witness for C4: 100 distinct keys inserted from capacity 8, crossing the
resize thresholds at sizes 7, 13, 25, 49 and 97. -/
theorem claim4_witness :
    ((((List.range 100).map (fun n => (List.replicate (n + 1) 'a', n))).map
        Prod.fst).Nodup) ∧
      ((applyOps (HashTable.empty 8 : HashTable Nat)
            ((List.range 100).map (fun n => (List.replicate (n + 1) 'a', n)))).size =
          ((List.range 100).map (fun n => (List.replicate (n + 1) 'a', n))).length ∧
        ∀ kv ∈ (List.range 100).map (fun n => (List.replicate (n + 1) 'a', n)),
          (applyOps (HashTable.empty 8 : HashTable Nat)
              ((List.range 100).map (fun n => (List.replicate (n + 1) 'a', n)))).get
            kv.1 = some kv.2) :=
  ⟨by decide, claim4_resize_preserves_entries _ (by decide)⟩

/-! ## Posting-list invariants through ingestion (C10) -/

theorem sumFor_ones_pos (tokens : List (List Char)) (t : List Char) (h : t ∈ tokens) :
    1 ≤ sumFor (tokens.map (fun x => (x, 1))) t := by
  induction tokens with
  | nil => simp at h
  | cons a rest ih =>
    rw [List.map_cons, sumFor_cons]
    rcases List.mem_cons.mp h with rfl | h2
    · simp
    · have := ih h2
      omega

theorem counts_val_pos (tokens : List (List Char)) (t : List Char) (f : Nat)
    (h : (t, f) ∈ foldBump [] (tokens.map (fun x => (x, 1)))) : 1 ≤ f := by
  obtain ⟨hmem, hval⟩ := (mem_foldBump_nil _ t f).mp h
  have hmem2 : t ∈ tokens := by
    rcases List.mem_map.mp hmem with ⟨x, hx, hfst⟩
    rcases List.mem_map.mp hx with ⟨y, hy, rfl⟩
    have : y = t := hfst
    exact this ▸ hy
  rw [hval]
  exact sumFor_ones_pos tokens t hmem2

theorem chainlt_append_one (ps : List Posting) (p : Posting)
    (h : List.Chain' (fun a b => a.doc_id < b.doc_id) ps)
    (hall : ∀ q ∈ ps, q.doc_id < p.doc_id) :
    List.Chain' (fun a b => a.doc_id < b.doc_id) (ps ++ [p]) := by
  induction ps with
  | nil => simp
  | cons a rest ih =>
    cases rest with
    | nil =>
      exact List.chain'_cons.mpr
        ⟨hall a (List.mem_cons_self a []), List.chain'_singleton p⟩
    | cons b rest2 =>
      obtain ⟨hab, hrest⟩ := List.chain'_cons.mp h
      exact List.chain'_cons.mpr
        ⟨hab, ih hrest (fun q hq => hall q (List.mem_cons_of_mem a hq))⟩

theorem indexFold_inv (n : Nat) (l : List (List Char × Nat))
    (hpos : ∀ tc ∈ l, 1 ≤ tc.2) (hnd : (l.map Prod.fst).Nodup) :
    ∀ ht : HashTable (List Posting), HTWF ht →
      (∀ t ps, ht.get t = some ps →
        List.Chain' (fun p q => p.doc_id < q.doc_id) ps ∧
          (∀ p ∈ ps, 1 ≤ p.term_freq ∧ p.doc_id ≤ n + 1) ∧
          (t ∈ l.map Prod.fst → ∀ p ∈ ps, p.doc_id ≤ n)) →
      HTWF (l.foldl (fun h tc => indexAdd h tc.1 ⟨n + 1, tc.2⟩) ht) ∧
        ∀ t ps,
          (l.foldl (fun h tc => indexAdd h tc.1 ⟨n + 1, tc.2⟩) ht).get t = some ps →
            List.Chain' (fun p q => p.doc_id < q.doc_id) ps ∧
              ∀ p ∈ ps, 1 ≤ p.term_freq ∧ p.doc_id ≤ n + 1 := by
  induction l with
  | nil =>
    intro ht hwf hinv
    exact ⟨hwf, fun t ps hg => ⟨(hinv t ps hg).1, (hinv t ps hg).2.1⟩⟩
  | cons tc rest ih =>
    intro ht hwf hinv
    simp only [List.map_cons, List.nodup_cons] at hnd
    have hpos1 : 1 ≤ tc.2 := hpos tc (List.mem_cons_self tc rest)
    obtain ⟨hwf1, hget1, hother1, _⟩ :=
      set_spec ht tc.1 (((ht.get tc.1).getD []) ++ [⟨n + 1, tc.2⟩]) hwf
    rw [List.foldl_cons]
    apply ih (fun tc2 htc2 => hpos tc2 (List.mem_cons_of_mem tc htc2)) hnd.2 _ hwf1
    intro t ps hg
    by_cases ht1 : t = tc.1
    · subst ht1
      rw [hget1] at hg
      cases hg
      have hold : List.Chain' (fun p q => p.doc_id < q.doc_id) ((ht.get tc.1).getD []) ∧
          (∀ p ∈ (ht.get tc.1).getD [], 1 ≤ p.term_freq ∧ p.doc_id ≤ n) := by
        cases hgt : ht.get tc.1 with
        | none => simp
        | some pso =>
          obtain ⟨hch, hbnd, hle⟩ := hinv tc.1 pso hgt
          refine ⟨by simpa using hch, ?_⟩
          intro p hp
          have h1 := hbnd p (by simpa using hp)
          have h2 := hle (by
            rw [List.map_cons]
            exact List.mem_cons_self _ _) p (by simpa using hp)
          simpa [h1.1] using h2
      refine ⟨?_, ?_, ?_⟩
      · apply chainlt_append_one _ _ hold.1
        intro q hq
        have := hold.2 q hq
        simp only []
        omega
      · intro p hp
        rcases List.mem_append.mp hp with hp | hp
        · have := hold.2 p hp
          omega
        · have hpeq : p = ⟨n + 1, tc.2⟩ := by simpa using hp
          rw [hpeq]
          exact ⟨hpos1, Nat.le_refl _⟩
      · intro hmem
        exact absurd hmem hnd.1
    · rw [hother1 t (fun hc => ht1 hc)] at hg
      obtain ⟨hch, hbnd, hle⟩ := hinv t ps hg
      refine ⟨hch, hbnd, ?_⟩
      intro hmem
      apply hle
      rw [List.map_cons]
      exact List.mem_cons_of_mem _ hmem

theorem engineInv_addDocument (e : Engine) (ti c fn : List Char) (h : EngineInv e) :
    EngineInv (addDocument e ti c fn).1 := by
  by_cases hc : tokenize c = []
  · simpa [addDocument, hc] using h
  · rw [addDocument_components e ti c fn hc]
    have hnd : ((foldBump [] ((tokenize c).map (fun t => (t, 1)))).map Prod.fst).Nodup :=
      foldBump_nil_nodup _
    have hpos : ∀ tc ∈ foldBump [] ((tokenize c).map (fun t => (t, 1))), 1 ≤ tc.2 := by
      intro tc htc
      exact counts_val_pos (tokenize c) tc.1 tc.2 htc
    have hbase : ∀ t ps, e.inverted_index.get t = some ps →
        List.Chain' (fun p q => p.doc_id < q.doc_id) ps ∧
          (∀ p ∈ ps, 1 ≤ p.term_freq ∧ p.doc_id ≤ e.doc_counter + 1) ∧
          (t ∈ (foldBump [] ((tokenize c).map (fun t => (t, 1)))).map Prod.fst →
            ∀ p ∈ ps, p.doc_id ≤ e.doc_counter) := by
      intro t ps hg
      obtain ⟨hch, hbnd⟩ := h.2 t ps hg
      refine ⟨hch, ?_, ?_⟩
      · intro p hp
        have hb := hbnd p hp
        exact ⟨hb.1, by omega⟩
      · intro _ p hp
        exact (hbnd p hp).2
    obtain ⟨hwf, hinv⟩ := indexFold_inv e.doc_counter _ hpos hnd
      e.inverted_index h.1 hbase
    refine ⟨hwf, ?_⟩
    intro t ps hg
    obtain ⟨hch, hbnd⟩ := hinv t ps hg
    exact ⟨hch, hbnd⟩

theorem engineInv_init : EngineInv engineInit := by
  refine ⟨empty_WF 1024, ?_⟩
  intro t ps hg
  have hnone : engineInit.inverted_index.get t = none := get_empty 1024 t
  rw [hnone] at hg
  cases hg

theorem engineInv_ingestAll (docs : List RawDoc) :
    ∀ e : Engine, EngineInv e → EngineInv (ingestAll e docs) := by
  induction docs with
  | nil => intro e h; exact h
  | cons d rest ih =>
    intro e h
    exact ih _ (engineInv_addDocument e d.title d.content d.filename h)

/-- C10: in every engine state reachable by ingesting documents from the
fresh engine, each stored posting list has strictly increasing document ids
(hence at most one posting per document id) and every posting's term
frequency is at least 1. -/
theorem claim10_posting_invariant (docs : List RawDoc) (t : List Char)
    (ps : List Posting)
    (h : (ingestAll engineInit docs).inverted_index.get t = some ps) :
    List.Chain' (fun p q => p.doc_id < q.doc_id) ps ∧
      (ps.map Posting.doc_id).Nodup ∧ ∀ p ∈ ps, 1 ≤ p.term_freq := by
  have hinv := engineInv_ingestAll docs engineInit engineInv_init
  obtain ⟨hch, hbnd⟩ := hinv.2 t ps h
  refine ⟨hch, ?_, fun p hp => (hbnd p hp).1⟩
  have hpw : ps.Pairwise (fun p q => p.doc_id < q.doc_id) := by
    have htrans : IsTrans Posting (fun p q => p.doc_id < q.doc_id) :=
      ⟨fun a b c hab hbc => Nat.lt_trans hab hbc⟩
    exact List.chain'_iff_pairwise.mp hch
  have hmap : (ps.map Posting.doc_id).Pairwise (fun a b => a < b) :=
    List.pairwise_map.mpr hpw
  exact hmap.imp (fun hab => Nat.ne_of_lt hab)

/-- Witness for C10 on a concrete two-document ingest. -/
theorem claim10_witness :
    (ingestAll engineInit
        [⟨"A".toList, "cat dog cat".toList, "a.txt".toList⟩,
          ⟨"B".toList, "dog dog".toList, "b.txt".toList⟩]).inverted_index.get
      ("dog".toList) = some [⟨1, 1⟩, ⟨2, 2⟩] ∧
      (List.Chain' (fun p q => p.doc_id < q.doc_id) [(⟨1, 1⟩ : Posting), ⟨2, 2⟩] ∧
        (([(⟨1, 1⟩ : Posting), ⟨2, 2⟩]).map Posting.doc_id).Nodup ∧
        ∀ p ∈ [(⟨1, 1⟩ : Posting), ⟨2, 2⟩], 1 ≤ p.term_freq) :=
  ⟨by decide,
    claim10_posting_invariant
      [⟨"A".toList, "cat dog cat".toList, "a.txt".toList⟩,
        ⟨"B".toList, "dog dog".toList, "b.txt".toList⟩]
      ("dog".toList) [⟨1, 1⟩, ⟨2, 2⟩] (by decide)⟩

/-! ## Remaining claims -/

theorem candsOf_false (e : Engine) (qt : List (List Char)) : candsOf e qt false = qt := by
  induction qt with
  | nil => rfl
  | cons t rest ih => simp [candsOf, List.flatMap_cons] at ih ⊢

theorem sumFor_flatMap {κ β : Type} [DecidableEq κ] (l : List β) (g : β → List (κ × Nat))
    (d : κ) : sumFor (l.flatMap g) d = (l.map (fun x => sumFor (g x) d)).sum := by
  induction l with
  | nil => rfl
  | cons x rest ih =>
    rw [List.flatMap_cons, sumFor_append, ih, List.map_cons, List.sum_cons]

theorem autocomplete_length_le (root : TrieNode) (pre : List Char) (lim : Nat) :
    (autocomplete root pre lim).length ≤ lim := by
  rw [autocomplete, List.length_map, autocompleteScored]
  cases hw : walkT pre root with
  | none => simp
  | some n =>
    simp only [List.length_take]
    omega

/-- C5: ingesting content whose token sequence is empty returns the `-1`
sentinel and leaves the engine state — counter, document table, inverted
index and trie — completely unchanged. -/
theorem claim5_empty_ingest_rejected (e : Engine) (ti c fn : List Char)
    (h : tokenize c = []) : addDocument e ti c fn = (e, -1) := by
  simp [addDocument, h]

/-- Witness for C5 at whitespace-only content. -/
theorem claim5_witness :
    tokenize ("   ".toList) = [] ∧
      addDocument engineInit ("t".toList) ("   ".toList) ("f.txt".toList) =
        (engineInit, -1) :=
  ⟨by decide,
    claim5_empty_ingest_rejected engineInit ("t".toList) ("   ".toList)
      ("f.txt".toList) (by decide)⟩

/-- C8: `tokenize` produces exactly the maximal ASCII-alphanumeric runs of
the lowercased input, in order, with stopword members removed; empty input
yields the empty sequence; and the stopword example evaluates as stated. -/
theorem claim8_tokenizer (s : List Char) :
    (∃ runs, RunsSpec (lowerStr s) runs ∧
        tokenize s = runs.filter (fun t => !(STOPWORDS.contains t))) ∧
      tokenize [] = [] ∧
      tokenize ("the quick fox and the lazy dog".toList) =
        ["quick".toList, "fox".toList, "lazy".toList, "dog".toList] :=
  ⟨⟨asciiRuns (lowerStr s), runsSpec_asciiRuns (lowerStr s), rfl⟩, rfl, by decide⟩

/-- C9: the `frequency` stored at a term's trie node equals the number of
successfully ingested documents whose token sequence contains the term —
one `insert` per distinct term per document, regardless of how often the
term occurs inside a document — and three documents containing "cat" give
frequency 3. -/
theorem claim9_document_frequency (docs : List RawDoc) (t : List Char) :
    freqAt (ingestAll engineInit docs).trie t =
        docs.countP (fun d => decide (t ∈ tokenize d.content)) ∧
      freqAt (ingestAll engineInit
          [⟨"A".toList, "cat".toList, "a".toList⟩,
            ⟨"B".toList, "cat cat cat".toList, "b".toList⟩,
            ⟨"C".toList, "dog cat".toList, "c".toList⟩]).trie ("cat".toList) = 3 := by
  constructor
  · rw [freqAt_ingestAll docs t engineInit,
      show freqAt engineInit.trie t = 0 from freqAt_empty t]
    omega
  · decide

/-- C2, evaluated at the failing input: `autocomplete` computes the
`(term, document_frequency)` pairs internally (`autocompleteScored`, the
`results[:limit]` slice) but its final comprehension drops the frequencies
and returns bare term strings, which the `/autocomplete` route of app.py
then fails to unpack as `(term, frequency)` pairs. -/
theorem claim2_code_eval :
    autocomplete (insertT ("apple".toList) TrieNode.empty) ("app".toList) 8 =
        ["apple".toList] ∧
      autocompleteScored (insertT ("apple".toList) TrieNode.empty) ("app".toList) 8 =
        [("apple".toList, 1)] := by
  constructor <;>
    simp [autocomplete, autocompleteScored, walkT, childFind, insertT, TrieNode.empty,
      bfsT, sortDesc, insDesc, TrieNode.children, TrieNode.is_end, TrieNode.frequency]

/-- C1: keyword search scores every document by the sum of `term_freq` over
all postings of the query's tokens (tokens with no postings contribute
nothing, a document matched by several tokens accumulates all their
frequencies), returns exactly the scored documents sorted by score
descending, breaks ties by first-encounter order over the posting
iteration, and evaluates as specified on the two-document example. -/
theorem claim1_keyword_search (docs : List RawDoc) (q : List Char) :
    let e := ingestAll engineInit docs
    let pairs := pairsOf e.inverted_index (tokenize q)
    let base := (firstKeys (pairs.map Prod.fst)).map (fun d => (d, sumFor pairs d))
    keywordSearch e q = sortDesc base ∧
      (keywordSearch e q).Pairwise (fun a b => b.2 ≤ a.2) ∧
      (∀ n, (keywordSearch e q).filter (fun y => decide (y.2 = n)) =
        base.filter (fun y => decide (y.2 = n))) ∧
      (∀ d s, (d, s) ∈ keywordSearch e q ↔
        d ∈ pairs.map Prod.fst ∧ s = sumFor pairs d) ∧
      (∀ d, sumFor pairs d = ((tokenize q).map (fun t =>
        sumFor ((postingsOf e.inverted_index t).map
          (fun p => (p.doc_id, p.term_freq))) d)).sum) ∧
      keywordSearch (ingestAll engineInit
        [⟨"A".toList, "cat dog cat".toList, "a.txt".toList⟩,
          ⟨"B".toList, "dog dog".toList, "b.txt".toList⟩]) ("dog".toList) =
        [(2, 2), (1, 1)] ∧
      keywordSearch (ingestAll engineInit
        [⟨"A".toList, "cat dog cat".toList, "a.txt".toList⟩,
          ⟨"B".toList, "dog dog".toList, "b.txt".toList⟩]) ("cat dog".toList) =
        [(1, 3), (2, 2)] := by
  intro e pairs base
  have hkey : keywordSearch e q = sortDesc (foldBump [] pairs) := by
    rw [keywordSearch, searchFn_eq, candsOf_false]
  have hbase : foldBump [] pairs = base := foldBump_nil pairs
  have hmain : keywordSearch e q = sortDesc base := by rw [hkey, hbase]
  refine ⟨hmain, ?_, ?_, ?_, ?_, by decide, by decide⟩
  · rw [hmain]
    exact sortDesc_sorted base
  · intro n
    rw [hmain, sortDesc_stable]
  · intro d s
    rw [hmain, List.Perm.mem_iff (sortDesc_perm base), ← hbase]
    exact mem_foldBump_nil pairs d s
  · intro d
    exact sumFor_flatMap (tokenize q) _ d

/-- C6: prefix search expands every query token through
`autocomplete(token, limit=25)` into at most 25 candidate terms and then
scores additively over the whole candidate list — occurrences are NOT
deduplicated, so a document matched by several expansions of the same token
adds all their term frequencies, as the one-document example shows. -/
theorem claim6_prefix_search (docs : List RawDoc) (q : List Char) :
    let e := ingestAll engineInit docs
    let cands := (tokenize q).flatMap (fun t => autocomplete e.trie t 25)
    let pairs := pairsOf e.inverted_index cands
    prefixSearch e q =
        sortDesc ((firstKeys (pairs.map Prod.fst)).map (fun d => (d, sumFor pairs d))) ∧
      (∀ t, (autocomplete e.trie t 25).length ≤ 25) ∧
      (∀ d, sumFor pairs d = (cands.map (fun t =>
        sumFor ((postingsOf e.inverted_index t).map
          (fun p => (p.doc_id, p.term_freq))) d)).sum) ∧
      prefixSearch (ingestAll engineInit
        [⟨"D".toList, "apple applesauce".toList, "d.txt".toList⟩]) ("app".toList) =
        [(1, 2)] := by
  intro e cands pairs
  refine ⟨?_, fun t => autocomplete_length_le e.trie t 25,
    fun d => sumFor_flatMap cands _ d, ?_⟩
  · rw [prefixSearch, searchFn_eq]
    rw [show candsOf e (tokenize q) true = cands from rfl, foldBump_nil]
  · have htrie : (ingestAll engineInit
        [⟨"D".toList, "apple applesauce".toList, "d.txt".toList⟩]).trie =
        TrieNode.mk [('a', .mk [('p', .mk [('p', .mk [('l', .mk [('e', .mk
          [('s', .mk [('a', .mk [('u', .mk [('c', .mk [('e', .mk [] true 1)]
          false 0)] false 0)] false 0)] false 0)] true 1)] false 0)] false 0)]
          false 0)] false 0)] false 0 := by
      rfl
    have hauto : autocomplete (TrieNode.mk [('a', .mk [('p', .mk [('p', .mk
        [('l', .mk [('e', .mk [('s', .mk [('a', .mk [('u', .mk [('c', .mk
        [('e', .mk [] true 1)] false 0)] false 0)] false 0)] false 0)] true 1)]
        false 0)] false 0)] false 0)] false 0)] false 0) ("app".toList) 25 =
        ["apple".toList, "applesauce".toList] := by
      simp [autocomplete, autocompleteScored, walkT, childFind, bfsT, sortDesc,
        insDesc, TrieNode.children, TrieNode.is_end, TrieNode.frequency]
    rw [prefixSearch, searchFn_eq]
    have ht : tokenize ("app".toList) = [("app".toList)] := by decide
    rw [show candsOf (ingestAll engineInit
        [⟨"D".toList, "apple applesauce".toList, "d.txt".toList⟩])
          (tokenize ("app".toList)) true =
        (tokenize ("app".toList)).flatMap (fun t =>
          autocomplete (ingestAll engineInit
            [⟨"D".toList, "apple applesauce".toList, "d.txt".toList⟩]).trie t 25)
      from rfl, ht, List.flatMap_cons, List.flatMap_nil, htrie, hauto]
    decide

theorem filenameFold_eq (qv : List Char) (b : Bool) (docs : List (Nat × DocMeta)) :
    ∀ acc : List (Nat × Nat),
      docs.foldl (fun acc dm =>
        let fn := lowerStr dm.2.filename
        if fn = [] then acc
        else if (if b then qv.isPrefixOf fn else isSubstring qv fn) then
          acc ++ [(dm.1, 1)]
        else acc) acc =
      acc ++ (docs.filter (fun dm =>
        (!(decide (lowerStr dm.2.filename = []))) &&
          (if b then qv.isPrefixOf (lowerStr dm.2.filename)
            else isSubstring qv (lowerStr dm.2.filename)))).map (fun dm => (dm.1, 1)) := by
  induction docs with
  | nil => intro acc; simp
  | cons dm rest ih =>
    intro acc
    rw [List.foldl_cons]
    have hstep : (let fn := lowerStr dm.2.filename
        if fn = [] then acc
        else if (if b then qv.isPrefixOf fn else isSubstring qv fn) then
          acc ++ [(dm.1, 1)]
        else acc) =
        (if lowerStr dm.2.filename = [] then acc
        else if (if b then qv.isPrefixOf (lowerStr dm.2.filename)
            else isSubstring qv (lowerStr dm.2.filename)) then acc ++ [(dm.1, 1)]
        else acc) := rfl
    rw [hstep, List.filter_cons]
    by_cases h1 : lowerStr dm.2.filename = []
    · rw [if_pos h1]
      have hcond : ((!(decide (lowerStr dm.2.filename = []))) &&
          (if b then qv.isPrefixOf (lowerStr dm.2.filename)
            else isSubstring qv (lowerStr dm.2.filename))) = false := by
        simp [h1]
      rw [hcond, if_neg (by simp)]
      exact ih acc
    · by_cases h2 : (if b then qv.isPrefixOf (lowerStr dm.2.filename)
          else isSubstring qv (lowerStr dm.2.filename)) = true
      · rw [if_neg h1, if_pos h2]
        have hcond : ((!(decide (lowerStr dm.2.filename = []))) &&
            (if b then qv.isPrefixOf (lowerStr dm.2.filename)
              else isSubstring qv (lowerStr dm.2.filename))) = true := by
          simp [h1, h2]
        rw [hcond, if_pos rfl, ih (acc ++ [(dm.1, 1)])]
        simp
      · rw [if_neg h1, if_neg h2]
        have hc2 : (if b then qv.isPrefixOf (lowerStr dm.2.filename)
            else isSubstring qv (lowerStr dm.2.filename)) = false := by
          rw [← Bool.not_eq_true]
          exact h2
        have hcond : ((!(decide (lowerStr dm.2.filename = []))) &&
            (if b then qv.isPrefixOf (lowerStr dm.2.filename)
              else isSubstring qv (lowerStr dm.2.filename))) = false := by
          rw [hc2, Bool.and_false]
        rw [hcond, if_neg (by simp)]
        exact ih acc

/-- C7: filename search strips and lowercases the query, returns empty for
an empty trimmed query, and otherwise yields `(document_id, 1)` for exactly
the documents whose lowercased filename matches (prefix or substring), in
document-table insertion order — never score-sorted — as the three-document
example shows. -/
theorem claim7_filename_search (e : Engine) (q : List Char) (b : Bool) :
    (filenameSearch e q b =
      if lowerStr (pyStrip q) = [] then []
      else (e.documents.filter (fun dm =>
        (!(decide (lowerStr dm.2.filename = []))) &&
          (if b then (lowerStr (pyStrip q)).isPrefixOf (lowerStr dm.2.filename)
            else isSubstring (lowerStr (pyStrip q)) (lowerStr dm.2.filename)))).map
        (fun dm => (dm.1, 1))) ∧
      (∀ d s, ((d, s) ∈ filenameSearch e q b ↔
        (s = 1 ∧ ¬(lowerStr (pyStrip q) = []) ∧ ∃ m, (d, m) ∈ e.documents ∧
          ¬(lowerStr m.filename = []) ∧
          (if b then (lowerStr (pyStrip q)).isPrefixOf (lowerStr m.filename)
            else isSubstring (lowerStr (pyStrip q)) (lowerStr m.filename)) = true))) ∧
      filenameSearch (ingestAll engineInit
        [⟨"A".toList, "alpha".toList, "notes.txt".toList⟩,
          ⟨"B".toList, "beta".toList, "report1.txt".toList⟩,
          ⟨"C".toList, "gamma".toList, "myreport.txt".toList⟩])
        ("report".toList) false = [(2, 1), (3, 1)] := by
  have heq : filenameSearch e q b =
      if lowerStr (pyStrip q) = [] then []
      else (e.documents.filter (fun dm =>
        (!(decide (lowerStr dm.2.filename = []))) &&
          (if b then (lowerStr (pyStrip q)).isPrefixOf (lowerStr dm.2.filename)
            else isSubstring (lowerStr (pyStrip q)) (lowerStr dm.2.filename)))).map
        (fun dm => (dm.1, 1)) := by
    simp only [filenameSearch]
    by_cases hq : lowerStr (pyStrip q) = []
    · simp [hq]
    · simp only [if_neg hq]
      have h := filenameFold_eq (lowerStr (pyStrip q)) b e.documents []
      simpa using h
  refine ⟨heq, ?_, by decide⟩
  intro d s
  rw [heq]
  by_cases hq : lowerStr (pyStrip q) = []
  · simp [hq]
  · simp only [if_neg hq]
    constructor
    · intro hmem
      rcases List.mem_map.mp hmem with ⟨dm, hdm, heq2⟩
      obtain ⟨hdoc, hcond⟩ := List.mem_filter.mp hdm
      rw [Bool.and_eq_true] at hcond
      have hfn : ¬(lowerStr dm.2.filename = []) := by simpa using hcond.1
      refine ⟨(congrArg Prod.snd heq2).symm, hq, dm.2, ?_, hfn, hcond.2⟩
      have hd : dm.1 = d := congrArg Prod.fst heq2
      rw [← hd]
      simpa using hdoc
    · rintro ⟨rfl, -, m, hm, hfn, hmatch⟩
      refine List.mem_map.mpr ⟨(d, m), List.mem_filter.mpr ⟨hm, ?_⟩, rfl⟩
      rw [Bool.and_eq_true]
      exact ⟨by simpa using hfn, hmatch⟩

end CampusSearch
